import Mathlib

/-!
Verification of the interval-scheduling core: the first-fit greedy packer
(`schedule`, from src/src/core/scheduler.ts), the legacy row-extraction packer
(`scheduling`, `schedulingPick`), the round-robin trial (`schedulingEaseTry`)
and the minimal-column search (`schedulingEase`) from the legacy scheduling
module, plus the efficiency metric and input validation.

Times are embedded as `Int` (the code uses JS numbers as totally ordered
scalars), the `efficiency` ratio as `Rat`.  Identifiers keep their generic
type `T` with decidable equality (the code compares ids with `===`).
-/

namespace IntervalScheduling

/-- The `ScheduleItem` / `Interval` record: an id plus a `[start, end)` range.
`end` is a reserved word in Lean, hence the guillemets. -/
structure Item (T : Type) where
  id : T
  start : Int
  «end» : Int
deriving DecidableEq, Repr

/-- Embeds `SchedulingOptions` from src/unnamed/part_003 (types module): all fields are
optional in the source; only `maxColumns` influences column contents. -/
structure SchedulingOptions where
  strategy : Option String
  maxColumns : Option Nat
  allowOverlap : Option Bool
  sortBy : Option String
deriving DecidableEq, Repr

/-- Options value `{}` (every field absent). -/
def defaultOptions : SchedulingOptions := ⟨none, none, none, none⟩

/-- Embeds `SchedulingResult` minus `metadata.processingTime` (wall-clock time, not
modelled; it influences nothing else). -/
structure SchedulingResult (T : Type) where
  columns : List (List T)
  totalColumns : Nat
  efficiency : Rat
  strategy : String
  inputSize : Nat
deriving DecidableEq, Repr

/-! ## Stable sort by `start`

Both implementations stable-sort a copy of the input by `start` ascending
(`schedule` with a three-way comparator on `start`, `scheduling` with the
numeric comparator `v.start - w.start`; JS `Array.prototype.sort` is stable).
The shared embedding is a stable insertion sort: each element is inserted
after all previously-placed elements whose `start` is `≤` its own. -/

def insertByStart {T : Type} (x : Item T) : List (Item T) → List (Item T)
  | [] => [x]
  | y :: rest => if x.start < y.start then x :: y :: rest else y :: insertByStart x rest

def sortByStart {T : Type} (a : List (Item T)) : List (Item T) :=
  a.foldl (fun acc x => insertByStart x acc) []

/-! ## First-fit greedy packer (src/src/core/scheduler.ts) -/

/-- Embeds `canPlace`: touching endpoints are compatible. -/
def canPlace {T : Type} (lastItem newItem : Item T) : Bool :=
  lastItem.«end» ≤ newItem.start

/-- Embeds `getItemById`: first item in the list with the given id. -/
def getItemById {T : Type} [DecidableEq T] (items : List (Item T)) (i : T) :
    Option (Item T) :=
  items.find? (fun item => item.id == i)

/-- The compatibility check the `schedule` loop performs on one column:
the column is nonempty, its last id resolves via `getItemById`, and
`canPlace` holds for the resolved item.  (Both the placement scan and
`findBestColumn` perform exactly this check.) -/
def columnAccepts {T : Type} [DecidableEq T] (sortedItems : List (Item T))
    (newItem : Item T) (column : List T) : Bool :=
  match column.getLast? with
  | none => false
  | some lastItemId =>
    match getItemById sortedItems lastItemId with
    | none => false
    | some lastItem => canPlace lastItem newItem

/-- The "try to place in existing columns" scan of `schedule`: append the
item's id to the first column passing `columnAccepts`, or report failure. -/
def placeFirstFit {T : Type} [DecidableEq T] (sortedItems : List (Item T))
    (item : Item T) : List (List T) → Option (List (List T))
  | [] => none
  | c :: rest =>
    if columnAccepts sortedItems item c then some ((c ++ [item.id]) :: rest)
    else (placeFirstFit sortedItems item rest).map (c :: ·)

/-- Embeds `findBestColumn`: index of the first column passing the compatibility
check; the source returns `-1` when none does, embedded as `none`. -/
def findBestColumn {T : Type} [DecidableEq T] (columns : List (List T))
    (items : List (Item T)) (newItem : Item T) : Option Nat :=
  columns.findIdx? (fun column => columnAccepts items newItem column)

/-- Embeds `options.maxColumns && columns.length >= options.maxColumns`
(JS truthiness: a configured value of `0` is falsy). -/
def maxColumnsReached {T : Type} (options : SchedulingOptions)
    (columns : List (List T)) : Bool :=
  match options.maxColumns with
  | none => false
  | some m => if m = 0 then false else decide (m ≤ columns.length)

/-- One iteration of the main loop of `schedule`. -/
def scheduleStep {T : Type} [DecidableEq T] (sortedItems : List (Item T))
    (options : SchedulingOptions) (columns : List (List T)) (item : Item T) :
    List (List T) :=
  match placeFirstFit sortedItems item columns with
  | some placed => placed
  | none =>
    if maxColumnsReached options columns then
      match findBestColumn columns sortedItems item with
      | some bestColumn =>
        match columns.get? bestColumn with
        | some targetColumn => columns.set bestColumn (targetColumn ++ [item.id])
        | none => columns
      | none => columns
    else columns ++ [[item.id]]

/-- Embeds `Math.max(...l)` for the nonempty lists the code applies it to
(for `l = []` the source yields `-Infinity`; every use below is guarded so
that both the source and this default-`0` embedding then return `0`). -/
def listMaxD : List Int → Int
  | [] => 0
  | x :: rest => rest.foldl max x

/-- Embeds `Math.min(...l)`, same conventions as `listMaxD`. -/
def listMinD : List Int → Int
  | [] => 0
  | x :: rest => rest.foldl min x

/-- Embeds `calculateEfficiency` from src/src/core/scheduler.ts. -/
def calculateEfficiency {T : Type} (columns : List (List T))
    (items : List (Item T)) : Rat :=
  if columns.length = 0 then 0
  else
    let totalUsedTime : Int :=
      items.foldl (fun sum item => sum + (item.«end» - item.start)) 0
    let totalSpan : Int :=
      listMaxD (items.map (fun item => item.«end»)) -
        listMinD (items.map (fun item => item.start))
    let totalPossibleTime : Int := totalSpan * (columns.length : Int)
    if 0 < totalPossibleTime then (totalUsedTime : Rat) / (totalPossibleTime : Rat)
    else 0

/-- Embeds `schedule` from src/src/core/scheduler.ts. -/
def schedule {T : Type} [DecidableEq T] (items : List (Item T))
    (options : SchedulingOptions) : SchedulingResult T :=
  let strategy := options.strategy.getD "greedy"
  let sortedItems := sortByStart items
  let columns := sortedItems.foldl (scheduleStep sortedItems options) []
  ⟨columns, columns.length, calculateEfficiency columns items, strategy,
    items.length⟩

/-! ## Legacy row-extraction packer (src/unnamed/part_003) -/

/-- The `for` loop of `schedulingPick`: scan the remaining items left to
right; whenever the current occupant `cur` ends no later than an item
starts, take that item (append its id, remove it, make it current). -/
def schedulingPickGo {T : Type} (cur : Item T) :
    List (Item T) → List T × List (Item T)
  | [] => ([], [])
  | x :: rest =>
    if cur.«end» > x.start then
      let (ids, rem) := schedulingPickGo cur rest
      (ids, x :: rem)
    else
      let (ids, rem) := schedulingPickGo x rest
      (x.id :: ids, rem)

/-- Embeds `schedulingPick`: extract the column containing the first item,
returning its ids and the remaining items. -/
def schedulingPick {T : Type} : List (Item T) → List T × List (Item T)
  | [] => ([], [])
  | x :: rest =>
    let (ids, rem) := schedulingPickGo x rest
    (x.id :: ids, rem)

/-- The `while (arr.length > 0)` loop of `scheduling`, with explicit fuel.
Each `schedulingPick` on a nonempty list removes at least its head
(`schedulingPickGo_rem_length` below), so fuel `= arr.length` never runs
out and the `0, _ :: _` branch is unreachable. -/
def schedulingGo {T : Type} : Nat → List (Item T) → List (List T)
  | _, [] => []
  | 0, _ :: _ => []
  | fuel + 1, x :: rest =>
    let (ids, rem) := schedulingPick (x :: rest)
    ids :: schedulingGo fuel rem

/-- Embeds `scheduling` from src/unnamed/part_003. -/
def scheduling {T : Type} (a : List (Item T)) : List (List T) :=
  schedulingGo a.length (sortByStart a)

/-! ## Round-robin trial and minimal-column search (src/unnamed/part_003) -/

/-- The inner `for (let j = 0; j < n; j++)` scan of `schedulingEaseTry`:
examine column `p % n`, advancing `p` after every candidate; place `v` at
the first column that is empty or whose tail ends no later than `v.start`. -/
def easeTryScan {T : Type} (v : Item T) (n : Nat) :
    Nat → List (List (Item T)) → Nat → Option (List (List (Item T)) × Nat)
  | 0, _, _ => none
  | j + 1, ans, p =>
    let i := p % n
    match ans.get? i with
    | some column =>
      match column.getLast? with
      | none => some (ans.set i (column ++ [v]), p + 1)
      | some tail =>
        if tail.«end» ≤ v.start then some (ans.set i (column ++ [v]), p + 1)
        else easeTryScan v n j ans (p + 1)
    | none => easeTryScan v n j ans (p + 1)

/-- The outer `for (const v of a)` loop of `schedulingEaseTry`; `none`
embeds the `return false` of the source. -/
def easeTryGo {T : Type} (n : Nat) :
    List (Item T) → List (List (Item T)) → Nat → Option (List (List (Item T)))
  | [], ans, _ => some ans
  | v :: rest, ans, p =>
    match easeTryScan v n n ans p with
    | some (ans2, p2) => easeTryGo n rest ans2 p2
    | none => none

/-- Embeds `schedulingEaseTry`: `Except.error` models the thrown `Error`,
`Except.ok none` the returned `false`, `Except.ok (some _)` success. -/
def schedulingEaseTry {T : Type} (a : List (Item T)) (n : Int) :
    Except String (Option (List (List T))) :=
  if n ≤ 0 then Except.error "n must be greater than 0"
  else
    match easeTryGo n.toNat a (List.replicate n.toNat []) 0 with
    | some ans => Except.ok (some (ans.map (fun v => v.map (fun e => e.id))))
    | none => Except.ok none

/-- The `for (const i of range(a.length))` loop of `schedulingEase`:
return the first successful trial, else the initial `[]`.  (Every `n`
passed to the trial is `i + 1 ≥ 1`, so the error case cannot occur.) -/
def schedulingEaseLoop {T : Type} (a : List (Item T)) : List Nat → List (List T)
  | [] => []
  | i :: rest =>
    match schedulingEaseTry a ((i : Int) + 1) with
    | Except.ok (some res) => res
    | _ => schedulingEaseLoop a rest

/-- Embeds `schedulingEase` from src/unnamed/part_003. -/
def schedulingEase {T : Type} (a : List (Item T)) : List (List T) :=
  schedulingEaseLoop a (List.range a.length)

/-! ## Validation -/

inductive ValidationErrorType where
  | INVALID_INTERVAL
  | NEGATIVE_DURATION
  | MISSING_FIELD
deriving DecidableEq, Repr

/-- The `ValidationError` record from src/unnamed/part_003 (types module). -/
structure ValidationError where
  type : ValidationErrorType
  message : String
  itemIndex : Nat
deriving DecidableEq, Repr

/-- Modelled from the spec: the body of `validate` / `validateIntervals` is
absent from src (only the `ValidationError` type and the declaration
`validateIntervals(items) : ValidationError[]` appear).  Per spec §4.1 it
checks every interval, emits `NEGATIVE_DURATION` carrying the originating
index whenever `end < start`, collects all errors instead of stopping at the
first, and does not mutate or filter the input.  In this typed embedding
every item structurally has all fields, so the `MISSING_FIELD` /
`INVALID_INTERVAL` cases are unreachable.  The message text is not specified;
a fixed string stands in for it. -/
def validate {T : Type} (items : List (Item T)) : List ValidationError :=
  (List.range items.length).filterMap (fun i =>
    match items.get? i with
    | some item =>
      if item.«end» < item.start then
        some ⟨ValidationErrorType.NEGATIVE_DURATION,
          "end must be greater than or equal to start", i⟩
      else none
    | none => none)

/-! ## Proof-support definitions

The `schedule` loop stores ids in its columns and resolves them back to
items through `getItemById`; to reason about it we mirror the loop at the
level of items (suffix `I`).  When the input ids are pairwise distinct the
two levels coincide (`schedule_columns_eq` below). -/

/-- Item-level mirror of the `placeFirstFit` scan: the column's last item
is at hand instead of being re-resolved from its id. -/
def placeFirstFitI {T : Type} (item : Item T) :
    List (List (Item T)) → Option (List (List (Item T)))
  | [] => none
  | c :: rest =>
    match c.getLast? with
    | some lastItem =>
      if canPlace lastItem item then some ((c ++ [item]) :: rest)
      else (placeFirstFitI item rest).map (c :: ·)
    | none => (placeFirstFitI item rest).map (c :: ·)

/-- Item-level mirror of `scheduleStep`.  When the first-fit scan fails and
the column limit is reached, the source consults `findBestColumn`, which
runs the same per-column check and therefore also fails: the item is
dropped, i.e. the columns are returned unchanged. -/
def scheduleStepI {T : Type} (options : SchedulingOptions)
    (columns : List (List (Item T))) (item : Item T) : List (List (Item T)) :=
  match placeFirstFitI item columns with
  | some placed => placed
  | none =>
    if maxColumnsReached options columns then columns
    else columns ++ [[item]]

/-- Item-level mirror of the column-building part of `schedule`. -/
def scheduleColsI {T : Type} (options : SchedulingOptions)
    (sortedItems : List (Item T)) : List (List (Item T)) :=
  sortedItems.foldl (scheduleStepI options) []

/-- Item-level mirror of `schedulingPickGo`: taken items instead of ids. -/
def pickGoI {T : Type} (cur : Item T) :
    List (Item T) → List (Item T) × List (Item T)
  | [] => ([], [])
  | x :: rest =>
    if cur.«end» > x.start then
      let (tk, rem) := pickGoI cur rest
      (tk, x :: rem)
    else
      let (tk, rem) := pickGoI x rest
      (x :: tk, rem)

/-- Item-level mirror of the `scheduling` loop. -/
def pickLoopI {T : Type} : Nat → List (Item T) → List (List (Item T))
  | _, [] => []
  | 0, _ :: _ => []
  | fuel + 1, x :: rest =>
    (x :: (pickGoI x rest).1) :: pickLoopI fuel (pickGoI x rest).2

/-- A no-overlap column of items: each occupant ends no later than the next
one starts. -/
def ChainCol {T : Type} (c : List (Item T)) : Prop :=
  List.Chain' (fun x y => x.«end» ≤ y.start) c

/-- The no-overlap condition between two adjacent ids of a result column,
read back through the input items: whichever input items carry these ids,
the earlier one ends no later than the later one starts. -/
def adjacentOk {T : Type} (items : List (Item T)) (t1 t2 : T) : Prop :=
  ∀ i1 ∈ items, i1.id = t1 → ∀ i2 ∈ items, i2.id = t2 → i1.«end» ≤ i2.start

/-- The spec's no-overlap invariant for a list of id columns. -/
def noOverlapColumns {T : Type} (items : List (Item T)) (cols : List (List T)) :
    Prop :=
  ∀ c ∈ cols, List.Chain' (adjacentOk items) c

/-- Number of intervals of `a` whose `[start, end)` range contains the
point `t` — the "overlap depth" at `t` of the spec's greedy-minimality
property. -/
def depthAt {T : Type} (a : List (Item T)) (t : Int) : Nat :=
  a.countP (fun it => decide (it.start ≤ t ∧ t < it.«end»))

/-- Total duration of a list of items. -/
def durSum {T : Type} (c : List (Item T)) : Int :=
  (c.map (fun x => x.«end» - x.start)).sum

/-! ## Sorting lemmas -/

theorem insertByStart_perm {T : Type} (x : Item T) (l : List (Item T)) :
    (insertByStart x l).Perm (x :: l) := by
  induction l with
  | nil => simp [insertByStart]
  | cons y rest ih =>
    by_cases h : x.start < y.start
    · simp [insertByStart, h]
    · simp only [insertByStart, if_neg h]
      exact (ih.cons y).trans (List.Perm.swap x y rest)

theorem sortByStart_perm_aux {T : Type} :
    ∀ (a acc : List (Item T)),
      (a.foldl (fun acc x => insertByStart x acc) acc).Perm (acc ++ a) := by
  intro a
  induction a with
  | nil => intro acc; simp
  | cons x rest ih =>
    intro acc
    have h1 := ih (insertByStart x acc)
    have h2 : (insertByStart x acc ++ rest).Perm (acc ++ x :: rest) :=
      ((insertByStart_perm x acc).append_right rest).trans List.perm_middle.symm
    exact h1.trans h2

theorem sortByStart_perm {T : Type} (a : List (Item T)) :
    (sortByStart a).Perm a := by
  simpa using sortByStart_perm_aux a []

theorem insertByStart_sorted {T : Type} (x : Item T) {l : List (Item T)}
    (h : l.Pairwise (fun u v => u.start ≤ v.start)) :
    (insertByStart x l).Pairwise (fun u v => u.start ≤ v.start) := by
  induction l with
  | nil => simp [insertByStart]
  | cons y rest ih =>
    rcases List.pairwise_cons.mp h with ⟨hy, hrest⟩
    by_cases hc : x.start < y.start
    · simp only [insertByStart, if_pos hc]
      refine List.pairwise_cons.mpr ⟨?_, h⟩
      intro z hz
      rcases List.mem_cons.mp hz with rfl | hz'
      · exact le_of_lt hc
      · exact (le_of_lt hc).trans (hy z hz')
    · simp only [insertByStart, if_neg hc]
      refine List.pairwise_cons.mpr ⟨?_, ih hrest⟩
      intro z hz
      rcases List.mem_cons.mp ((insertByStart_perm x rest).mem_iff.mp hz) with rfl | hz'
      · exact not_lt.mp hc
      · exact hy z hz'

theorem sortByStart_sorted_aux {T : Type} :
    ∀ (a acc : List (Item T)),
      acc.Pairwise (fun u v => u.start ≤ v.start) →
      (a.foldl (fun acc x => insertByStart x acc) acc).Pairwise
        (fun u v => u.start ≤ v.start) := by
  intro a
  induction a with
  | nil => intro acc h; simpa using h
  | cons x rest ih =>
    intro acc h
    exact ih (insertByStart x acc) (insertByStart_sorted x h)

theorem sortByStart_sorted {T : Type} (a : List (Item T)) :
    (sortByStart a).Pairwise (fun u v => u.start ≤ v.start) :=
  sortByStart_sorted_aux a [] (by simp)

/-! ## Lemmas about the row-extraction pass -/

theorem schedulingPickGo_eq {T : Type} (cur : Item T) (l : List (Item T)) :
    schedulingPickGo cur l =
      ((pickGoI cur l).1.map (fun x => x.id), (pickGoI cur l).2) := by
  induction l generalizing cur with
  | nil => rfl
  | cons x rest ih =>
    by_cases h : cur.«end» > x.start
    · simp [schedulingPickGo, pickGoI, if_pos h, ih cur]
    · simp [schedulingPickGo, pickGoI, if_neg h, ih x]

theorem pickGoI_perm {T : Type} (cur : Item T) (l : List (Item T)) :
    l.Perm ((pickGoI cur l).1 ++ (pickGoI cur l).2) := by
  induction l generalizing cur with
  | nil => simp [pickGoI]
  | cons x rest ih =>
    by_cases h : cur.«end» > x.start
    · simp only [pickGoI, if_pos h]
      exact ((ih cur).cons x).trans List.perm_middle.symm
    · simp only [pickGoI, if_neg h]
      exact (ih x).cons x

theorem pickGoI_rem_length {T : Type} (cur : Item T) (l : List (Item T)) :
    (pickGoI cur l).2.length ≤ l.length := by
  have h := (pickGoI_perm cur l).length_eq
  simp only [List.length_append] at h
  omega

theorem pickGoI_chain {T : Type} (cur : Item T) (l : List (Item T)) :
    ChainCol (cur :: (pickGoI cur l).1) := by
  induction l generalizing cur with
  | nil => simp [pickGoI, ChainCol]
  | cons x rest ih =>
    by_cases h : cur.«end» > x.start
    · simpa [pickGoI, if_pos h] using ih cur
    · simp only [pickGoI, if_neg h, ChainCol] at ih ⊢
      exact List.Chain'.cons (not_lt.mp h) (ih x)

theorem pickGoI_taken_mem {T : Type} (cur : Item T) (l : List (Item T)) :
    ∀ y ∈ (pickGoI cur l).1, y ∈ l :=
  fun y hy => (pickGoI_perm cur l).symm.subset (List.mem_append_left _ hy)

theorem pickGoI_rem_mem {T : Type} (cur : Item T) (l : List (Item T)) :
    ∀ y ∈ (pickGoI cur l).2, y ∈ l :=
  fun y hy => (pickGoI_perm cur l).symm.subset (List.mem_append_right _ hy)

theorem schedulingGo_eq_map {T : Type} :
    ∀ (fuel : Nat) (l : List (Item T)),
      schedulingGo fuel l =
        (pickLoopI fuel l).map (fun c => c.map (fun x => x.id)) := by
  intro fuel
  induction fuel with
  | zero => intro l; cases l <;> rfl
  | succ fuel ih =>
    intro l
    cases l with
    | nil => rfl
    | cons x rest =>
      simp only [schedulingGo, pickLoopI, schedulingPick, schedulingPickGo_eq,
        List.map_cons, List.map_map]
      rw [ih]

theorem scheduling_eq_map {T : Type} (a : List (Item T)) :
    scheduling a =
      (pickLoopI a.length (sortByStart a)).map (fun c => c.map (fun x => x.id)) :=
  schedulingGo_eq_map a.length (sortByStart a)

theorem pickLoopI_flatten_perm {T : Type} :
    ∀ (fuel : Nat) (l : List (Item T)), l.length ≤ fuel →
      (pickLoopI fuel l).flatten.Perm l := by
  intro fuel
  induction fuel with
  | zero =>
    intro l h
    cases l with
    | nil => simp [pickLoopI]
    | cons x rest => simp at h
  | succ fuel ih =>
    intro l h
    cases l with
    | nil => simp [pickLoopI]
    | cons x rest =>
      simp only [pickLoopI, List.flatten_cons]
      have hrem : (pickGoI x rest).2.length ≤ fuel :=
        le_trans (pickGoI_rem_length x rest) (by simpa using h)
      have h1 := (ih _ hrem).append_left (x :: (pickGoI x rest).1)
      refine h1.trans ?_
      exact ((pickGoI_perm x rest).symm.cons x)

theorem pickLoopI_cols {T : Type} :
    ∀ (fuel : Nat) (l : List (Item T)), l.length ≤ fuel →
      ∀ c ∈ pickLoopI fuel l, ChainCol c ∧ c ≠ [] ∧ ∀ y ∈ c, y ∈ l := by
  intro fuel
  induction fuel with
  | zero =>
    intro l h
    cases l with
    | nil => simp [pickLoopI]
    | cons x rest => simp at h
  | succ fuel ih =>
    intro l h
    cases l with
    | nil => simp [pickLoopI]
    | cons x rest =>
      intro c hc
      simp only [pickLoopI, List.mem_cons] at hc
      rcases hc with rfl | hc
      · refine ⟨pickGoI_chain x rest, by simp, ?_⟩
        intro y hy
        rcases List.mem_cons.mp hy with rfl | hy'
        · exact List.mem_cons_self _ _
        · exact List.mem_cons_of_mem _ (pickGoI_taken_mem x rest y hy')
      · have hrem : (pickGoI x rest).2.length ≤ fuel :=
          le_trans (pickGoI_rem_length x rest) (by simpa using h)
        obtain ⟨h1, h2, h3⟩ := ih _ hrem c hc
        exact ⟨h1, h2, fun y hy =>
          List.mem_cons_of_mem _ (pickGoI_rem_mem x rest y (h3 y hy))⟩

/-! ## Lemmas about the item-level first-fit pass -/

theorem placeFirstFitI_some {T : Type} (item : Item T) :
    ∀ cols cols2, placeFirstFitI item cols = some cols2 →
      ∃ pre c post L, cols = pre ++ c :: post ∧
        cols2 = pre ++ (c ++ [item]) :: post ∧
        c.getLast? = some L ∧ L.«end» ≤ item.start := by
  intro cols
  induction cols with
  | nil => intro cols2 h; simp [placeFirstFitI] at h
  | cons c rest ih =>
    intro cols2 h
    simp only [placeFirstFitI] at h
    cases hL : c.getLast? with
    | none =>
      rw [hL] at h
      cases hr : placeFirstFitI item rest with
      | none => rw [hr] at h; simp at h
      | some r =>
        rw [hr] at h
        simp only [Option.map_some', Option.some.injEq] at h
        obtain ⟨pre, c', post, L, h1, h2, h3, h4⟩ := ih r hr
        exact ⟨c :: pre, c', post, L, by simp [h1], by simp [← h, h2], h3, h4⟩
    | some L =>
      rw [hL] at h
      cases hcp : canPlace L item with
      | true =>
        simp only [hcp, if_true, Option.some.injEq] at h
        refine ⟨[], c, rest, L, rfl, by simp [← h], hL, ?_⟩
        simpa [canPlace, decide_eq_true_eq] using hcp
      | false =>
        simp only [hcp, Bool.false_eq_true, if_false] at h
        cases hr : placeFirstFitI item rest with
        | none => rw [hr] at h; simp at h
        | some r =>
          rw [hr] at h
          simp only [Option.map_some', Option.some.injEq] at h
          obtain ⟨pre, c', post, L', h1, h2, h3, h4⟩ := ih r hr
          exact ⟨c :: pre, c', post, L', by simp [h1], by simp [← h, h2], h3, h4⟩

theorem placeFirstFitI_flatten_perm {T : Type} {item : Item T}
    {cols cols2 : List (List (Item T))}
    (h : placeFirstFitI item cols = some cols2) :
    cols2.flatten.Perm (item :: cols.flatten) := by
  obtain ⟨pre, c, post, L, h1, h2, _, _⟩ := placeFirstFitI_some item cols cols2 h
  subst h1; subst h2
  have h3 : (pre ++ (c ++ [item]) :: post).flatten =
      (pre.flatten ++ c) ++ item :: post.flatten := by
    simp [List.flatten_append, List.flatten_cons, List.append_assoc]
  have h4 : (pre ++ c :: post).flatten = (pre.flatten ++ c) ++ post.flatten := by
    simp [List.flatten_append, List.flatten_cons, List.append_assoc]
  rw [h3, h4]
  exact List.perm_middle

theorem placeFirstFitI_chain {T : Type} {item : Item T}
    {cols cols2 : List (List (Item T))}
    (hall : ∀ c ∈ cols, ChainCol c)
    (h : placeFirstFitI item cols = some cols2) :
    ∀ c ∈ cols2, ChainCol c := by
  obtain ⟨pre, c, post, L, h1, h2, hL, hle⟩ := placeFirstFitI_some item cols cols2 h
  subst h1; subst h2
  intro c' hc'
  simp only [List.mem_append, List.mem_cons] at hc'
  rcases hc' with hpre | rfl | hpost
  · exact hall c' (by simp [hpre])
  · have hc : ChainCol c := hall c (by simp)
    refine List.chain'_append.mpr ⟨hc, List.chain'_singleton item, ?_⟩
    intro x hx y hy
    simp only [List.head?_cons, Option.mem_def, Option.some.injEq] at hy
    rw [hL] at hx
    simp only [Option.mem_def, Option.some.injEq] at hx
    subst hx; subst hy
    exact hle
  · exact hall c' (by simp [hpost])

theorem placeFirstFitI_nonempty {T : Type} {item : Item T}
    {cols cols2 : List (List (Item T))}
    (hall : ∀ c ∈ cols, c ≠ [])
    (h : placeFirstFitI item cols = some cols2) :
    ∀ c ∈ cols2, c ≠ [] := by
  obtain ⟨pre, c, post, L, h1, h2, _, _⟩ := placeFirstFitI_some item cols cols2 h
  subst h1; subst h2
  intro c' hc'
  simp only [List.mem_append, List.mem_cons] at hc'
  rcases hc' with hpre | rfl | hpost
  · exact hall c' (by simp [hpre])
  · simp
  · exact hall c' (by simp [hpost])

theorem placeFirstFitI_length {T : Type} {item : Item T}
    {cols cols2 : List (List (Item T))}
    (h : placeFirstFitI item cols = some cols2) :
    cols2.length = cols.length := by
  obtain ⟨pre, c, post, L, h1, h2, _, _⟩ := placeFirstFitI_some item cols cols2 h
  subst h1; subst h2
  simp

theorem placeFirstFitI_none {T : Type} (item : Item T) :
    ∀ cols, placeFirstFitI item cols = none →
      ∀ c ∈ cols, ∀ L, c.getLast? = some L → item.start < L.«end» := by
  intro cols
  induction cols with
  | nil => intro _ c hc; simp at hc
  | cons c rest ih =>
    intro h c' hc' L hL
    simp only [placeFirstFitI] at h
    rcases List.mem_cons.mp hc' with rfl | hmem
    · rw [hL] at h
      cases hcp : canPlace L item with
      | true => simp [hcp] at h
      | false =>
        have : ¬(L.«end» ≤ item.start) := by
          simpa [canPlace, decide_eq_true_eq] using hcp
        omega
    · cases hgl : c.getLast? with
      | none =>
        rw [hgl] at h
        simp only [Option.map_eq_none'] at h
        exact ih h c' hmem L hL
      | some L0 =>
        rw [hgl] at h
        cases hcp : canPlace L0 item with
        | true => simp [hcp] at h
        | false =>
          simp only [hcp, Bool.false_eq_true, if_false, Option.map_eq_none'] at h
          exact ih h c' hmem L hL

/-! ## Step and fold lemmas for the item-level first-fit pass -/

theorem scheduleStepI_flatten_perm {T : Type} {options : SchedulingOptions}
    (hmax : options.maxColumns = none) (cols : List (List (Item T)))
    (item : Item T) :
    (scheduleStepI options cols item).flatten.Perm (item :: cols.flatten) := by
  unfold scheduleStepI
  cases h : placeFirstFitI item cols with
  | some placed => exact placeFirstFitI_flatten_perm h
  | none =>
    simp only [maxColumnsReached, hmax, Bool.false_eq_true, if_false]
    have he : (cols ++ [[item]]).flatten = cols.flatten ++ [item] := by simp
    rw [he]
    exact List.perm_append_comm

theorem scheduleStepI_chain {T : Type} (options : SchedulingOptions)
    {cols : List (List (Item T))} (item : Item T)
    (hall : ∀ c ∈ cols, ChainCol c) :
    ∀ c ∈ scheduleStepI options cols item, ChainCol c := by
  unfold scheduleStepI
  cases h : placeFirstFitI item cols with
  | some placed => exact placeFirstFitI_chain hall h
  | none =>
    by_cases hm : maxColumnsReached options cols = true
    · simpa [hm] using hall
    · simp only [hm, if_false]
      intro c hc
      rcases List.mem_append.mp hc with hc' | hc'
      · exact hall c hc'
      · simp only [List.mem_singleton] at hc'
        subst hc'
        exact List.chain'_singleton item

theorem scheduleStepI_nonempty {T : Type} (options : SchedulingOptions)
    {cols : List (List (Item T))} (item : Item T)
    (hall : ∀ c ∈ cols, c ≠ []) :
    ∀ c ∈ scheduleStepI options cols item, c ≠ [] := by
  unfold scheduleStepI
  cases h : placeFirstFitI item cols with
  | some placed => exact placeFirstFitI_nonempty hall h
  | none =>
    by_cases hm : maxColumnsReached options cols = true
    · simpa [hm] using hall
    · simp only [hm, if_false]
      intro c hc
      rcases List.mem_append.mp hc with hc' | hc'
      · exact hall c hc'
      · simp only [List.mem_singleton] at hc'
        subst hc'
        simp

theorem scheduleStepI_mem {T : Type} (options : SchedulingOptions)
    {cols : List (List (Item T))} {item : Item T} :
    ∀ y ∈ (scheduleStepI options cols item).flatten,
      y ∈ cols.flatten ∨ y = item := by
  intro y hy
  unfold scheduleStepI at hy
  split at hy
  · rename_i placed hplaced
    have hmem := (placeFirstFitI_flatten_perm hplaced).subset hy
    rcases List.mem_cons.mp hmem with rfl | h'
    · exact Or.inr rfl
    · exact Or.inl h'
  · rename_i hnone
    split at hy
    · exact Or.inl hy
    · simp only [List.flatten_append, List.flatten_cons, List.flatten_nil,
        List.append_nil, List.mem_append, List.mem_singleton] at hy
      rcases hy with hy | hy
      · exact Or.inl hy
      · exact Or.inr hy

theorem scheduleStepI_mem_cols {T : Type} {options : SchedulingOptions}
    {cols : List (List (Item T))} {S : List (Item T)} {item : Item T}
    (hmem : ∀ cI ∈ cols, ∀ y ∈ cI, y ∈ S) (hitem : item ∈ S) :
    ∀ cI ∈ scheduleStepI options cols item, ∀ y ∈ cI, y ∈ S := by
  intro cI hcI y hy
  have hfl : y ∈ (scheduleStepI options cols item).flatten :=
    List.mem_flatten.mpr ⟨cI, hcI, hy⟩
  rcases scheduleStepI_mem options y hfl with h' | rfl
  · rcases List.mem_flatten.mp h' with ⟨c0, hc0, hyc0⟩
    exact hmem c0 hc0 y hyc0
  · exact hitem

theorem foldl_stepI_flatten_perm {T : Type} {options : SchedulingOptions}
    (hmax : options.maxColumns = none) :
    ∀ (l : List (Item T)) (cols : List (List (Item T))),
      (List.foldl (scheduleStepI options) cols l).flatten.Perm
        (cols.flatten ++ l) := by
  intro l
  induction l with
  | nil => intro cols; simp
  | cons x rest ih =>
    intro cols
    simp only [List.foldl_cons]
    refine (ih (scheduleStepI options cols x)).trans ?_
    have h1 := (scheduleStepI_flatten_perm hmax cols x).append_right rest
    exact h1.trans List.perm_middle.symm

theorem foldl_stepI_chain {T : Type} (options : SchedulingOptions) :
    ∀ (l : List (Item T)) (cols : List (List (Item T))),
      (∀ c ∈ cols, ChainCol c) →
      ∀ c ∈ List.foldl (scheduleStepI options) cols l, ChainCol c := by
  intro l
  induction l with
  | nil => intro cols h; simpa using h
  | cons x rest ih =>
    intro cols h
    exact ih (scheduleStepI options cols x) (scheduleStepI_chain options x h)

theorem foldl_stepI_nonempty {T : Type} (options : SchedulingOptions) :
    ∀ (l : List (Item T)) (cols : List (List (Item T))),
      (∀ c ∈ cols, c ≠ []) →
      ∀ c ∈ List.foldl (scheduleStepI options) cols l, c ≠ [] := by
  intro l
  induction l with
  | nil => intro cols h; simpa using h
  | cons x rest ih =>
    intro cols h
    exact ih (scheduleStepI options cols x) (scheduleStepI_nonempty options x h)

theorem foldl_stepI_mem_cols {T : Type} {options : SchedulingOptions}
    {S : List (Item T)} :
    ∀ (l : List (Item T)) (cols : List (List (Item T))),
      (∀ cI ∈ cols, ∀ y ∈ cI, y ∈ S) → (∀ x ∈ l, x ∈ S) →
      ∀ cI ∈ List.foldl (scheduleStepI options) cols l, ∀ y ∈ cI, y ∈ S := by
  intro l
  induction l with
  | nil => intro cols h _; simpa using h
  | cons x rest ih =>
    intro cols h hl
    exact ih (scheduleStepI options cols x)
      (scheduleStepI_mem_cols h (hl x (by simp)))
      (fun y hy => hl y (by simp [hy]))

theorem scheduleColsI_flatten_perm {T : Type} {options : SchedulingOptions}
    (hmax : options.maxColumns = none) (l : List (Item T)) :
    (scheduleColsI options l).flatten.Perm l := by
  simpa [scheduleColsI] using foldl_stepI_flatten_perm hmax l []

theorem scheduleColsI_chain {T : Type} (options : SchedulingOptions)
    (l : List (Item T)) :
    ∀ c ∈ scheduleColsI options l, ChainCol c :=
  foldl_stepI_chain options l [] (by simp)

theorem scheduleColsI_nonempty {T : Type} (options : SchedulingOptions)
    (l : List (Item T)) :
    ∀ c ∈ scheduleColsI options l, c ≠ [] :=
  foldl_stepI_nonempty options l [] (by simp)

theorem scheduleColsI_mem_cols {T : Type} (options : SchedulingOptions)
    (l : List (Item T)) :
    ∀ cI ∈ scheduleColsI options l, ∀ y ∈ cI, y ∈ l :=
  foldl_stepI_mem_cols l [] (by simp) (fun _ hx => hx)

/-! ## Resolving ids back to items under distinct ids -/

theorem getItemById_of_nodup {T : Type} [DecidableEq T] :
    ∀ {items : List (Item T)}, (items.map (fun x => x.id)).Nodup →
      ∀ {x : Item T}, x ∈ items → getItemById items x.id = some x := by
  intro items
  induction items with
  | nil => intro _ x hx; simp at hx
  | cons y rest ih =>
    intro h x hx
    simp only [List.map_cons, List.nodup_cons] at h
    obtain ⟨hy, hrest⟩ := h
    rcases List.mem_cons.mp hx with rfl | hx'
    · simp [getItemById, List.find?_cons]
    · have hne : (y.id == x.id) = false := by
        rw [beq_eq_false_iff_ne]
        intro he
        exact hy (he ▸ List.mem_map_of_mem (fun x => x.id) hx')
      simpa [getItemById, List.find?_cons, hne] using ih hrest hx'

theorem columnAccepts_map {T : Type} [DecidableEq T] {items : List (Item T)}
    (h : (items.map (fun x => x.id)).Nodup) {c : List (Item T)}
    (hc : ∀ y ∈ c, y ∈ items) (item : Item T) :
    columnAccepts items item (c.map (fun x => x.id)) =
      (match c.getLast? with
       | none => false
       | some L => canPlace L item) := by
  cases hL : c.getLast? with
  | none =>
    have hcnil : c = [] := by
      cases c with
      | nil => rfl
      | cons z zs => simp [List.getLast?_eq_none_iff] at hL
    subst hcnil
    rfl
  | some L =>
    have hmap : (c.map (fun x => x.id)).getLast? = some L.id := by
      rw [List.getLast?_map, hL]; rfl
    have hLc : L ∈ c := List.mem_of_mem_getLast? hL
    simp [columnAccepts, hmap, getItemById_of_nodup h (hc L hLc)]

theorem placeFirstFit_none_iff {T : Type} [DecidableEq T]
    (sortedItems : List (Item T)) (item : Item T) :
    ∀ cols, placeFirstFit sortedItems item cols = none ↔
      ∀ c ∈ cols, columnAccepts sortedItems item c = false := by
  intro cols
  induction cols with
  | nil => simp [placeFirstFit]
  | cons c rest ih =>
    simp only [placeFirstFit]
    cases hacc : columnAccepts sortedItems item c with
    | true => simp [hacc]
    | false => simp [hacc, Option.map_eq_none', ih]

theorem findBestColumn_eq_none {T : Type} [DecidableEq T]
    {columns : List (List T)} {items : List (Item T)} {newItem : Item T}
    (h : ∀ c ∈ columns, columnAccepts items newItem c = false) :
    findBestColumn columns items newItem = none := by
  rw [findBestColumn, List.findIdx?_eq_none_iff]
  intro c hc
  simp [h c hc]

theorem placeFirstFit_map {T : Type} [DecidableEq T] {sortedItems : List (Item T)}
    (h : (sortedItems.map (fun x => x.id)).Nodup) (item : Item T) :
    ∀ (colsI : List (List (Item T))),
      (∀ cI ∈ colsI, ∀ y ∈ cI, y ∈ sortedItems) →
      placeFirstFit sortedItems item (colsI.map (fun c => c.map (fun x => x.id))) =
        (placeFirstFitI item colsI).map
          (fun cols => cols.map (fun c => c.map (fun x => x.id))) := by
  intro colsI
  induction colsI with
  | nil => intro _; rfl
  | cons cI rest ih =>
    intro hmem
    have hih := ih (fun c hc y hy => hmem c (by simp [hc]) y hy)
    simp only [List.map_cons, placeFirstFit]
    rw [columnAccepts_map h (fun y hy => hmem cI (by simp) y hy) item]
    cases hL : cI.getLast? with
    | none =>
      simp only [placeFirstFitI, hL, Bool.false_eq_true, if_false]
      rw [hih]
      cases placeFirstFitI item rest <;> simp
    | some L =>
      cases hcp : canPlace L item with
      | true =>
        simp only [placeFirstFitI, hL, hcp, if_true]
        simp
      | false =>
        simp only [placeFirstFitI, hL, hcp, Bool.false_eq_true, if_false]
        rw [hih]
        cases placeFirstFitI item rest <;> simp

theorem scheduleStep_map {T : Type} [DecidableEq T] {sortedItems : List (Item T)}
    (h : (sortedItems.map (fun x => x.id)).Nodup) (options : SchedulingOptions)
    {colsI : List (List (Item T))}
    (hmem : ∀ cI ∈ colsI, ∀ y ∈ cI, y ∈ sortedItems) (item : Item T) :
    scheduleStep sortedItems options (colsI.map (fun c => c.map (fun x => x.id)))
        item =
      (scheduleStepI options colsI item).map (fun c => c.map (fun x => x.id)) := by
  unfold scheduleStep scheduleStepI
  rw [placeFirstFit_map h item colsI hmem]
  cases hp : placeFirstFitI item colsI with
  | some placed => simp
  | none =>
    simp only [Option.map_none']
    have hreach : maxColumnsReached options
        (colsI.map (fun c => c.map (fun x => x.id))) =
          maxColumnsReached options colsI := by
      unfold maxColumnsReached
      cases options.maxColumns <;> simp
    rw [hreach]
    by_cases hm : maxColumnsReached options colsI = true
    · simp only [hm, if_true]
      have hplaceid : placeFirstFit sortedItems item
          (colsI.map (fun c => c.map (fun x => x.id))) = none := by
        rw [placeFirstFit_map h item colsI hmem, hp]; rfl
      have hnone := (placeFirstFit_none_iff sortedItems item _).mp hplaceid
      rw [findBestColumn_eq_none hnone]
    · simp [hm]

theorem foldl_step_map {T : Type} [DecidableEq T] {sortedItems : List (Item T)}
    (h : (sortedItems.map (fun x => x.id)).Nodup) (options : SchedulingOptions) :
    ∀ (l : List (Item T)) (colsI : List (List (Item T))),
      (∀ cI ∈ colsI, ∀ y ∈ cI, y ∈ sortedItems) → (∀ x ∈ l, x ∈ sortedItems) →
      List.foldl (scheduleStep sortedItems options)
          (colsI.map (fun c => c.map (fun x => x.id))) l =
        (List.foldl (scheduleStepI options) colsI l).map
          (fun c => c.map (fun x => x.id)) := by
  intro l
  induction l with
  | nil => intro colsI _ _; rfl
  | cons x rest ih =>
    intro colsI hmem hl
    simp only [List.foldl_cons]
    rw [scheduleStep_map h options hmem x]
    exact ih (scheduleStepI options colsI x)
      (scheduleStepI_mem_cols hmem (hl x (by simp)))
      (fun y hy => hl y (by simp [hy]))

theorem schedule_columns_eq {T : Type} [DecidableEq T] {items : List (Item T)}
    (h : (items.map (fun x => x.id)).Nodup) (options : SchedulingOptions) :
    (schedule items options).columns =
      (scheduleColsI options (sortByStart items)).map
        (fun c => c.map (fun x => x.id)) := by
  have hsorted : ((sortByStart items).map (fun x => x.id)).Nodup :=
    (((sortByStart_perm items).map (fun x => x.id)).nodup_iff).mpr h
  show List.foldl (scheduleStep (sortByStart items) options) [] (sortByStart items) = _
  have hh := foldl_step_map hsorted options (sortByStart items) []
    (by simp) (fun _ hx => hx)
  simpa [scheduleColsI] using hh

/-! ## Lemmas about the round-robin trial -/

theorem easeTryScan_some {T : Type} (v : Item T) (n : Nat) :
    ∀ (fuel : Nat) (ans : List (List (Item T))) (p : Nat)
      (ans2 : List (List (Item T))) (p2 : Nat),
      easeTryScan v n fuel ans p = some (ans2, p2) →
      ∃ i column, ans.get? i = some column ∧
        (column = [] ∨ ∃ tail, column.getLast? = some tail ∧
          tail.«end» ≤ v.start) ∧
        ans2 = ans.set i (column ++ [v]) := by
  intro fuel
  induction fuel with
  | zero => intro ans p ans2 p2 h; simp [easeTryScan] at h
  | succ fuel ih =>
    intro ans p ans2 p2 h
    simp only [easeTryScan] at h
    split at h
    · rename_i column hg
      split at h
      · rename_i hL
        simp only [Option.some.injEq, Prod.mk.injEq] at h
        exact ⟨p % n, column, hg, Or.inl (by
          cases column with
          | nil => rfl
          | cons z zs => simp [List.getLast?_eq_none_iff] at hL), h.1.symm⟩
      · rename_i tail hL
        split at h
        · rename_i hle
          simp only [Option.some.injEq, Prod.mk.injEq] at h
          exact ⟨p % n, column, hg, Or.inr ⟨tail, hL, hle⟩, h.1.symm⟩
        · exact ih ans (p + 1) ans2 p2 h
    · exact ih ans (p + 1) ans2 p2 h

theorem flatten_set_append {T : Type} :
    ∀ (ans : List (List (Item T))) (i : Nat) (column : List (Item T))
      (v : Item T),
      ans.get? i = some column →
      (ans.set i (column ++ [v])).flatten.Perm (v :: ans.flatten) := by
  intro ans
  induction ans with
  | nil => intro i c v h; simp at h
  | cons c0 rest ih =>
    intro i c v h
    cases i with
    | zero =>
      simp only [List.get?] at h
      injection h with h
      subst h
      simp only [List.set, List.flatten_cons]
      have he : (c0 ++ [v]) ++ rest.flatten = c0 ++ v :: rest.flatten := by simp
      rw [he]
      exact List.perm_middle
    | succ i' =>
      simp only [List.get?] at h
      simp only [List.set, List.flatten_cons]
      refine ((ih i' c v h).append_left c0).trans ?_
      exact List.perm_middle

theorem chainCol_append_last {T : Type} {column : List (Item T)} {v : Item T}
    (hcol : ChainCol column)
    (hacc : column = [] ∨ ∃ tail, column.getLast? = some tail ∧
      tail.«end» ≤ v.start) :
    ChainCol (column ++ [v]) := by
  rcases hacc with rfl | ⟨tail, hL, hle⟩
  · simpa [ChainCol] using List.chain'_singleton v
  · refine List.chain'_append.mpr ⟨hcol, List.chain'_singleton v, ?_⟩
    intro x hx y hy
    rw [hL] at hx
    simp only [Option.mem_def, Option.some.injEq] at hx
    simp only [List.head?_cons, Option.mem_def, Option.some.injEq] at hy
    subst hx; subst hy
    exact hle

theorem easeTryGo_some {T : Type} (n : Nat) :
    ∀ (l : List (Item T)) (ans : List (List (Item T))) (p : Nat)
      (ans2 : List (List (Item T))),
      easeTryGo n l ans p = some ans2 →
      ans2.flatten.Perm (ans.flatten ++ l) ∧ ans2.length = ans.length ∧
      ((∀ c ∈ ans, ChainCol c) → ∀ c ∈ ans2, ChainCol c) := by
  intro l
  induction l with
  | nil =>
    intro ans p ans2 h
    simp only [easeTryGo, Option.some.injEq] at h
    subst h
    exact ⟨by simp, rfl, fun h => h⟩
  | cons v rest ih =>
    intro ans p ans2 h
    simp only [easeTryGo] at h
    split at h
    case _ ansMid pMid hscan =>
      obtain ⟨i, column, hg, hacc, hmid⟩ :=
        easeTryScan_some v n n ans p ansMid pMid hscan
      subst hmid
      obtain ⟨hperm, hlen, hchain⟩ := ih _ _ _ h
      refine ⟨?_, ?_, ?_⟩
      · refine hperm.trans ?_
        have h1 := (flatten_set_append ans i column v hg).append_right rest
        exact h1.trans List.perm_middle.symm
      · rw [hlen, List.length_set]
      · intro hall
        refine hchain ?_
        intro c' hc'
        rcases List.mem_or_eq_of_mem_set hc' with hc'' | rfl
        · exact hall c' hc''
        · exact chainCol_append_last (hall column (List.get?_mem hg)) hacc
    case _ => exact absurd h (by simp)

theorem easeTryGo_mem {T : Type} {n : Nat} {l : List (Item T)}
    {ans ans2 : List (List (Item T))} {p : Nat}
    (h : easeTryGo n l ans p = some ans2) :
    ∀ y ∈ ans2.flatten, y ∈ ans.flatten ∨ y ∈ l := by
  intro y hy
  have hperm := (easeTryGo_some n l ans p ans2 h).1
  rcases List.mem_append.mp (hperm.subset hy) with h' | h'
  · exact Or.inl h'
  · exact Or.inr h'

theorem add_sub_mod_eq (p i n : Nat) (hn : 0 < n) (hi : i < n) :
    (p + (i + n - p % n) % n) % n = i := by
  have h1 : p % n < n := Nat.mod_lt p hn
  rw [Nat.add_mod_mod]
  have e2 : p + (i + n - p % n) = n * (p / n) + (n + i) := by
    have hd := Nat.div_add_mod p n
    omega
  rw [e2, Nat.mul_add_mod, Nat.add_mod_left]
  exact Nat.mod_eq_of_lt hi

theorem easeTryScan_isSome {T : Type} (v : Item T) (n : Nat) :
    ∀ (fuel : Nat) (ans : List (List (Item T))) (p : Nat),
      (∃ j, j < fuel ∧ ∃ column, ans.get? ((p + j) % n) = some column ∧
        (column = [] ∨ ∃ tail, column.getLast? = some tail ∧
          tail.«end» ≤ v.start)) →
      (easeTryScan v n fuel ans p).isSome := by
  intro fuel
  induction fuel with
  | zero =>
    rintro ans p ⟨j, hj, _⟩
    omega
  | succ fuel ih =>
    rintro ans p ⟨j, hj, column, hg, hacc⟩
    simp only [easeTryScan]
    split
    · rename_i column0 hg0
      split
      · simp
      · rename_i tail0 hL
        split
        · simp
        · rename_i hle
          apply ih
          have hj1 : j ≠ 0 := by
            rintro rfl
            rw [Nat.add_zero, hg0] at hg
            injection hg with hg
            subst hg
            rcases hacc with rfl | ⟨tail, hLtail, hle'⟩
            · simp at hL
            · rw [hL] at hLtail
              injection hLtail with hLtail
              subst hLtail
              exact hle hle'
          refine ⟨j - 1, by omega, column, ?_, hacc⟩
          have he : p + 1 + (j - 1) = p + j := by omega
          rw [he]
          exact hg
    · rename_i hg0
      apply ih
      have hj1 : j ≠ 0 := by
        rintro rfl
        rw [Nat.add_zero, hg0] at hg
        cases hg
      refine ⟨j - 1, by omega, column, ?_, hacc⟩
      have he : p + 1 + (j - 1) = p + j := by omega
      rw [he]
      exact hg

theorem easeTryScan_isSome_full {T : Type} (v : Item T) {n : Nat} (hn : 0 < n)
    {ans : List (List (Item T))} {i : Nat} (hi : i < n)
    (hcol : ∃ column, ans.get? i = some column ∧
      (column = [] ∨ ∃ tail, column.getLast? = some tail ∧
        tail.«end» ≤ v.start)) (p : Nat) :
    (easeTryScan v n n ans p).isSome := by
  apply easeTryScan_isSome
  refine ⟨(i + n - p % n) % n, Nat.mod_lt _ hn, ?_⟩
  rw [add_sub_mod_eq p i n hn hi]
  exact hcol

theorem exists_empty_col {T : Type} {n : Nat} {ans : List (List (Item T))}
    (hlen : ans.length = n) (hshort : ans.flatten.length < n) :
    ∃ i, i < n ∧ ans.get? i = some [] := by
  by_contra hcon
  push_neg at hcon
  have hne : ∀ c ∈ ans, c ≠ [] := by
    intro c hc hcnil
    subst hcnil
    obtain ⟨i, hi⟩ := List.mem_iff_get?.mp hc
    have hilt : i < n := by
      rw [← hlen]
      exact (List.get?_eq_some.mp hi).1
    exact hcon i hilt hi
  have hge : n ≤ ans.flatten.length := by
    rw [List.length_flatten]
    calc n = (ans.map List.length).length • 1 := by simp [hlen]
    _ ≤ (ans.map List.length).sum := by
      apply List.card_nsmul_le_sum
      intro x hx
      obtain ⟨c, hc, rfl⟩ := List.mem_map.mp hx
      have := hne c hc
      cases c with
      | nil => simp at this
      | cons z zs => simp
  omega

theorem easeTryGo_isSome {T : Type} {n : Nat} (hn : 0 < n) :
    ∀ (l : List (Item T)) (ans : List (List (Item T))) (p : Nat),
      ans.length = n → ans.flatten.length + l.length ≤ n →
      (easeTryGo n l ans p).isSome := by
  intro l
  induction l with
  | nil => intro ans p _ _; simp [easeTryGo]
  | cons v rest ih =>
    intro ans p hlen htot
    simp only [easeTryGo]
    have hshort : ans.flatten.length < n := by
      simp only [List.length_cons] at htot
      omega
    obtain ⟨i, hi, hcol⟩ := exists_empty_col hlen hshort
    have hscan := easeTryScan_isSome_full v hn hi ⟨[], hcol, Or.inl rfl⟩ p
    split
    case _ ansMid pMid hs =>
      obtain ⟨i2, col2, hg2, _, hmid⟩ :=
        easeTryScan_some v n n ans p ansMid pMid hs
      subst hmid
      apply ih
      · rw [List.length_set]; exact hlen
      · have hl := (flatten_set_append ans i2 col2 v hg2).length_eq
        simp only [List.length_cons] at hl htot
        omega
    case _ hs =>
      rw [hs] at hscan
      simp at hscan

theorem flatten_replicate_nil {α : Type} :
    ∀ n : Nat, (List.replicate n ([] : List α)).flatten = [] := by
  intro n
  induction n with
  | zero => rfl
  | succ n ih => simp [List.replicate_succ, ih]

theorem placeFirstFit_of_findIdx {T : Type} [DecidableEq T]
    (sortedItems : List (Item T)) (item : Item T) :
    ∀ (cols : List (List T)) (i : Nat) (c : List T),
      cols.findIdx? (fun col => columnAccepts sortedItems item col) = some i →
      cols.get? i = some c →
      placeFirstFit sortedItems item cols =
        some (cols.set i (c ++ [item.id])) := by
  intro cols
  induction cols with
  | nil => intro i c h _; simp at h
  | cons c0 rest ih =>
    intro i c hidx hget
    rw [List.findIdx?_cons] at hidx
    cases hacc : columnAccepts sortedItems item c0 with
    | true =>
      rw [hacc] at hidx
      simp only [if_true, Option.some.injEq] at hidx
      subst hidx
      simp only [List.get?] at hget
      injection hget with hget
      subst hget
      simp [placeFirstFit, hacc, List.set]
    | false =>
      rw [hacc] at hidx
      simp only [Bool.false_eq_true, if_false, List.findIdx?_succ,
        Option.map_eq_some'] at hidx
      obtain ⟨i', hfi, hi⟩ := hidx
      subst hi
      simp only [List.get?] at hget
      have hrec := ih i' c hfi hget
      simp only [placeFirstFit, hacc, Bool.false_eq_true, if_false, hrec,
        Option.map_some', List.set]

/-! ## Claim theorems -/

/-- C5: for the input `[(a,1,10),(b,5,15),(c,10,20),(d,12,20),(e,16,17)]`
the greedy strategy returns exactly the columns `[[a,c],[b,e],[d]]` — three
columns in that order, ids in that placement order — both for the legacy
`scheduling` implementation and for `schedule` with default (greedy,
unconstrained) options. -/
theorem greedy_scenario :
    scheduling [(⟨"a",1,10⟩ : Item String), ⟨"b",5,15⟩, ⟨"c",10,20⟩,
        ⟨"d",12,20⟩, ⟨"e",16,17⟩] = [["a","c"],["b","e"],["d"]] ∧
    (schedule [(⟨"a",1,10⟩ : Item String), ⟨"b",5,15⟩, ⟨"c",10,20⟩,
        ⟨"d",12,20⟩, ⟨"e",16,17⟩] defaultOptions).columns =
      [["a","c"],["b","e"],["d"]] ∧
    (schedule [(⟨"a",1,10⟩ : Item String), ⟨"b",5,15⟩, ⟨"c",10,20⟩,
        ⟨"d",12,20⟩, ⟨"e",16,17⟩] defaultOptions).totalColumns = 3 :=
  ⟨by decide, by decide, by decide⟩

/-- C8: the round-robin trial `schedulingEaseTry` fails fast on every
`n ≤ 0` by raising the error `n must be greater than 0`; it never clamps
and never returns a packing or the `false` failure value. -/
theorem ease_try_rejects_nonpositive {T : Type} (a : List (Item T)) (n : Int)
    (h : n ≤ 0) :
    schedulingEaseTry a n = Except.error "n must be greater than 0" := by
  unfold schedulingEaseTry
  rw [if_pos h]

/-- Witness for C8 at `a = []`, `n = 0`. -/
theorem ease_try_rejects_nonpositive_witness :
    (0 : Int) ≤ 0 ∧ schedulingEaseTry ([] : List (Item Nat)) 0 =
      Except.error "n must be greater than 0" :=
  ⟨le_refl 0, ease_try_rejects_nonpositive [] 0 (le_refl 0)⟩

/-- C7: when `maxColumns` is configured (nonzero) and the packer has already
created at least that many columns, an interval whose compatibility check
fails against every existing column is silently dropped — the columns are
returned unchanged and no error is raised — while if some existing column
passes the check, the interval's id is appended to the first such column. -/
theorem max_columns_degenerate {T : Type} [DecidableEq T]
    (sortedItems : List (Item T)) (options : SchedulingOptions)
    (cols : List (List T)) (item : Item T) (m : Nat)
    (hm : options.maxColumns = some m) (hm0 : m ≠ 0)
    (hlen : m ≤ cols.length) :
    ((∀ c ∈ cols, columnAccepts sortedItems item c = false) →
      scheduleStep sortedItems options cols item = cols) ∧
    (∀ (i : Nat) (c : List T),
      findBestColumn cols sortedItems item = some i → cols.get? i = some c →
      scheduleStep sortedItems options cols item =
        cols.set i (c ++ [item.id])) := by
  constructor
  · intro hnone
    have hpf : placeFirstFit sortedItems item cols = none :=
      (placeFirstFit_none_iff sortedItems item cols).mpr hnone
    have hreach : maxColumnsReached options cols = true := by
      unfold maxColumnsReached
      rw [hm]
      simp [hm0, hlen]
    have hfb : findBestColumn cols sortedItems item = none :=
      findBestColumn_eq_none hnone
    simp only [scheduleStep, hpf, hreach, if_true, hfb]
  · intro i c hfb hget
    have hpf := placeFirstFit_of_findIdx sortedItems item cols i c hfb hget
    simp only [scheduleStep, hpf]

/-- Witness for C7: `maxColumns = 1` already reached, the new interval
overlaps the only column's occupant, so the step leaves the columns
unchanged (the interval is dropped). -/
theorem max_columns_degenerate_witness :
    (⟨none, some 1, none, none⟩ : SchedulingOptions).maxColumns = some 1 ∧
    (1 : Nat) ≠ 0 ∧ 1 ≤ ([["a"]] : List (List String)).length ∧
    ((∀ c ∈ ([["a"]] : List (List String)),
        columnAccepts [(⟨"a",0,10⟩ : Item String)] ⟨"b",0,10⟩ c = false) →
      scheduleStep [(⟨"a",0,10⟩ : Item String)] ⟨none, some 1, none, none⟩
        [["a"]] ⟨"b",0,10⟩ = [["a"]]) := by
  refine ⟨rfl, by decide, by decide, ?_⟩
  exact (max_columns_degenerate [(⟨"a",0,10⟩ : Item String)]
    ⟨none, some 1, none, none⟩ [["a"]] ⟨"b",0,10⟩ 1 rfl (by decide)
    (by decide)).1

/-- C9 (spec-modelled: the body of `validate` is absent from src, only its
`ValidationError` type and its declaration appear; `validate` here is
modelled from spec §4.1): an error with kind `NEGATIVE_DURATION` and index
`i` is reported exactly when the interval at index `i` has `end < start` —
in particular one error per offending interval, none skipped — and every
reported error (in this typed embedding) is a `NEGATIVE_DURATION`. -/
theorem validate_negative_duration {T : Type} (items : List (Item T))
    (i : Nat) :
    ((∃ e ∈ validate items,
        e.type = ValidationErrorType.NEGATIVE_DURATION ∧ e.itemIndex = i) ↔
      ∃ it, items.get? i = some it ∧ it.«end» < it.start) ∧
    ∀ e ∈ validate items, e.type = ValidationErrorType.NEGATIVE_DURATION := by
  constructor
  · constructor
    · rintro ⟨e, he, _, hidx⟩
      obtain ⟨j, hj, hf⟩ := List.mem_filterMap.mp he
      split at hf
      · rename_i it hg
        split at hf
        · rename_i hlt
          simp only [Option.some.injEq] at hf
          subst hf
          simp only at hidx
          subst hidx
          exact ⟨it, hg, hlt⟩
        · simp at hf
      · simp at hf
    · rintro ⟨it, hg, hlt⟩
      have hi : i < items.length := (List.get?_eq_some.mp hg).1
      refine ⟨⟨ValidationErrorType.NEGATIVE_DURATION,
        "end must be greater than or equal to start", i⟩, ?_, rfl, rfl⟩
      apply List.mem_filterMap.mpr
      refine ⟨i, List.mem_range.mpr hi, ?_⟩
      simp only [hg, if_pos hlt]
  · intro e he
    obtain ⟨j, hj, hf⟩ := List.mem_filterMap.mp he
    split at hf
    · split at hf
      · simp only [Option.some.injEq] at hf
        subst hf
        rfl
      · simp at hf
    · simp at hf

/-- Witness for C9 at the single interval `(0, 5, 3)` (end `3` < start `5`):
the reported error set at index `0` matches. -/
theorem validate_negative_duration_witness :
    ∃ it, ([(⟨0,5,3⟩ : Item Nat)].get? 0) = some it ∧ it.«end» < it.start :=
  (validate_negative_duration [(⟨0,5,3⟩ : Item Nat)] 0).1.mp
    ⟨⟨ValidationErrorType.NEGATIVE_DURATION,
      "end must be greater than or equal to start", 0⟩,
      by decide, by decide, by decide⟩

/-! ## First-fit equals iterated row extraction -/

theorem foldl_stepI_cons_pick {T : Type} {options : SchedulingOptions}
    (hmax : options.maxColumns = none) :
    ∀ (l : List (Item T)) (c : List (Item T)) (cur : Item T)
      (cols : List (List (Item T))),
      c.getLast? = some cur →
      List.foldl (scheduleStepI options) (c :: cols) l =
        (c ++ (pickGoI cur l).1) ::
          List.foldl (scheduleStepI options) cols (pickGoI cur l).2 := by
  intro l
  induction l with
  | nil => intro c cur cols _; simp [pickGoI]
  | cons x l' ih =>
    intro c cur cols hlast
    by_cases hcp : cur.«end» > x.start
    · have hcanp : canPlace cur x = false := by
        simp only [canPlace, decide_eq_false_iff_not]
        omega
      have hpc : placeFirstFitI x (c :: cols) =
          (placeFirstFitI x cols).map (c :: ·) := by
        simp only [placeFirstFitI, hlast, hcanp, Bool.false_eq_true, if_false]
      have hstep : scheduleStepI options (c :: cols) x =
          c :: scheduleStepI options cols x := by
        unfold scheduleStepI
        rw [hpc]
        cases hp : placeFirstFitI x cols with
        | some r => simp
        | none => simp [maxColumnsReached, hmax]
      rw [List.foldl_cons, hstep]
      rw [ih c cur (scheduleStepI options cols x) hlast]
      simp only [pickGoI, if_pos hcp]
      rw [List.foldl_cons]
    · have hcanp : canPlace cur x = true := by
        simp only [canPlace, decide_eq_true_eq]
        omega
      have hstep : scheduleStepI options (c :: cols) x = (c ++ [x]) :: cols := by
        unfold scheduleStepI
        simp only [placeFirstFitI, hlast, hcanp, if_true]
      rw [List.foldl_cons, hstep]
      rw [ih (c ++ [x]) x cols (List.getLast?_concat c)]
      simp only [pickGoI, if_neg hcp]
      simp [List.append_assoc]

theorem ffI_eq_pickLoopI {T : Type} {options : SchedulingOptions}
    (hmax : options.maxColumns = none) :
    ∀ (fuel : Nat) (l : List (Item T)), l.length ≤ fuel →
      List.foldl (scheduleStepI options) [] l = pickLoopI fuel l := by
  intro fuel
  induction fuel with
  | zero =>
    intro l h
    cases l with
    | nil => rfl
    | cons x rest => simp at h
  | succ fuel ih =>
    intro l h
    cases l with
    | nil => rfl
    | cons x l' =>
      rw [List.foldl_cons]
      have hstep : scheduleStepI options [] x = [[x]] := by
        simp [scheduleStepI, placeFirstFitI, maxColumnsReached, hmax]
      rw [hstep]
      rw [foldl_stepI_cons_pick hmax l' [x] x [] rfl]
      simp only [pickLoopI]
      rw [ih _ (le_trans (pickGoI_rem_length x l') (by simpa using h))]
      simp

/-- C10: for inputs with pairwise-distinct ids and no `maxColumns`, the
columns of the first-fit implementation `schedule` (scheduler.ts) coincide
exactly — same columns, same order, same placement order — with the output
of the legacy row-extraction implementation `scheduling`. -/
theorem schedule_refines_scheduling {T : Type} [DecidableEq T]
    (items : List (Item T)) (options : SchedulingOptions)
    (h : (items.map (fun x => x.id)).Nodup)
    (hmax : options.maxColumns = none) :
    (schedule items options).columns = scheduling items := by
  rw [schedule_columns_eq h options, scheduling_eq_map]
  congr 1
  rw [scheduleColsI]
  exact ffI_eq_pickLoopI hmax items.length (sortByStart items)
    (le_of_eq (sortByStart_perm items).length_eq)

/-- Witness for C10 at the five-interval scenario input. -/
theorem schedule_refines_scheduling_witness :
    (schedule [(⟨"a",1,10⟩ : Item String), ⟨"b",5,15⟩, ⟨"c",10,20⟩,
        ⟨"d",12,20⟩, ⟨"e",16,17⟩] defaultOptions).columns =
      scheduling [(⟨"a",1,10⟩ : Item String), ⟨"b",5,15⟩, ⟨"c",10,20⟩,
        ⟨"d",12,20⟩, ⟨"e",16,17⟩] :=
  schedule_refines_scheduling _ defaultOptions (by decide) rfl

/-! ## No-overlap invariant -/

theorem chain_map_adjacentOk {T : Type} {items : List (Item T)}
    (h : (items.map (fun x => x.id)).Nodup) :
    ∀ (cI : List (Item T)), ChainCol cI → (∀ y ∈ cI, y ∈ items) →
      List.Chain' (adjacentOk items) (cI.map (fun x => x.id)) := by
  intro cI
  induction cI with
  | nil => intro _ _; simp
  | cons x rest ih =>
    intro hchain hmem
    cases rest with
    | nil => simp
    | cons y rest' =>
      unfold ChainCol at hchain
      rw [List.map_cons, List.map_cons]
      have hxy := (List.chain'_cons.mp hchain).1
      have hrest := (List.chain'_cons.mp hchain).2
      refine List.Chain'.cons ?_ ?_
      · intro i1 h1 e1 i2 h2 e2
        have hx : x ∈ items := hmem x (by simp)
        have hy : y ∈ items := hmem y (by simp)
        have hi1 : i1 = x := List.inj_on_of_nodup_map h h1 hx e1
        have hi2 : i2 = y := List.inj_on_of_nodup_map h h2 hy e2
        subst hi1; subst hi2
        exact hxy
      · have ihy := ih hrest (fun z hz => hmem z (by simp [List.mem_cons.mp hz]))
        simpa using ihy

/-- C1: for inputs with pairwise-distinct ids, every column produced by any
packing operation — the legacy greedy `scheduling`, the first-fit `schedule`
under any options, and the round-robin trial `schedulingEaseTry` whenever it
succeeds — satisfies the no-overlap invariant: reading adjacent ids back
through the input items, the earlier interval ends no later than the later
one starts (touching endpoints allowed). -/
theorem no_overlap_invariant {T : Type} [DecidableEq T] (items : List (Item T))
    (h : (items.map (fun x => x.id)).Nodup) :
    noOverlapColumns items (scheduling items) ∧
    (∀ options, noOverlapColumns items (schedule items options).columns) ∧
    (∀ (n : Int) (cols : List (List T)),
      schedulingEaseTry items n = Except.ok (some cols) →
      noOverlapColumns items cols) := by
  have hlen : (sortByStart items).length ≤ items.length :=
    le_of_eq (sortByStart_perm items).length_eq
  refine ⟨?_, ?_, ?_⟩
  · intro c hc
    rw [scheduling_eq_map] at hc
    obtain ⟨cI, hcI, rfl⟩ := List.mem_map.mp hc
    obtain ⟨hchain, _, hmem⟩ :=
      pickLoopI_cols items.length (sortByStart items) hlen cI hcI
    exact chain_map_adjacentOk h cI hchain
      (fun y hy => (sortByStart_perm items).subset (hmem y hy))
  · intro options c hc
    rw [schedule_columns_eq h options] at hc
    obtain ⟨cI, hcI, rfl⟩ := List.mem_map.mp hc
    have hchain := scheduleColsI_chain options (sortByStart items) cI hcI
    have hmem := scheduleColsI_mem_cols options (sortByStart items) cI hcI
    exact chain_map_adjacentOk h cI hchain
      (fun y hy => (sortByStart_perm items).subset (hmem y hy))
  · intro n cols hok
    unfold schedulingEaseTry at hok
    split at hok
    · cases hok
    · split at hok
      · rename_i ansI hgo
        simp only [Except.ok.injEq, Option.some.injEq] at hok
        subst hok
        intro c hc
        obtain ⟨cI, hcI, hmap⟩ := List.mem_map.mp hc
        subst hmap
        have hinit : ∀ c0 ∈ List.replicate n.toNat ([] : List (Item T)),
            ChainCol c0 := by
          intro c0 hc0
          rw [List.eq_of_mem_replicate hc0]
          exact List.chain'_nil
        have hchain := (easeTryGo_some _ _ _ _ _ hgo).2.2 hinit cI hcI
        have hmemI : ∀ y ∈ cI, y ∈ items := by
          intro y hy
          have hfl : y ∈ ansI.flatten := List.mem_flatten.mpr ⟨cI, hcI, hy⟩
          rcases easeTryGo_mem hgo y hfl with h' | h'
          · rw [flatten_replicate_nil] at h'
            cases h'
          · exact h'
        exact chain_map_adjacentOk h cI hchain hmemI
      · cases hok

/-- Witness for C1 at a small two-interval input with distinct ids. -/
theorem no_overlap_invariant_witness :
    noOverlapColumns [(⟨"a",0,5⟩ : Item String), ⟨"b",3,8⟩]
      (scheduling [(⟨"a",0,5⟩ : Item String), ⟨"b",3,8⟩]) :=
  (no_overlap_invariant _ (by decide)).1

/-! ## Minimal-column search -/

theorem easeTry_total {T : Type} (a : List (Item T)) (n : Int) (hn : 0 < n) :
    schedulingEaseTry a n = Except.ok none ∨
      ∃ cols, schedulingEaseTry a n = Except.ok (some cols) := by
  unfold schedulingEaseTry
  rw [if_neg (by omega)]
  split
  · exact Or.inr ⟨_, rfl⟩
  · exact Or.inl rfl

theorem ease_loop_spec {T : Type} (a : List (Item T)) :
    ∀ ns : List Nat,
      (∃ i : Nat, i ∈ ns ∧ ∃ cols,
        schedulingEaseTry a ((i : Int) + 1) = Except.ok (some cols)) →
      ∃ (ns1 : List Nat) (i : Nat) (ns2 : List Nat), ns = ns1 ++ i :: ns2 ∧
        (∀ j ∈ ns1, schedulingEaseTry a ((j : Int) + 1) = Except.ok none) ∧
        ∃ cols, schedulingEaseTry a ((i : Int) + 1) = Except.ok (some cols) ∧
          schedulingEaseLoop a ns = cols := by
  intro ns
  induction ns with
  | nil => rintro ⟨i, hi, _⟩; simp at hi
  | cons i0 rest ih =>
    rintro ⟨i, hi, cols, hok⟩
    have h0 : (0 : Int) < (i0 : Int) + 1 := by positivity
    rcases easeTry_total a ((i0 : Int) + 1) h0 with hfail | ⟨cols0, hok0⟩
    · have hloop : schedulingEaseLoop a (i0 :: rest) =
          schedulingEaseLoop a rest := by
        simp only [schedulingEaseLoop, hfail]
      have hi' : i ∈ rest := by
        rcases List.mem_cons.mp hi with rfl | h'
        · rw [hok] at hfail
          simp at hfail
        · exact h'
      obtain ⟨ns1, i', ns2, heq, hfails, cols', hok', hres⟩ :=
        ih ⟨i, hi', cols, hok⟩
      refine ⟨i0 :: ns1, i', ns2, by simp [heq], ?_, cols', hok', ?_⟩
      · intro j hj
        rcases List.mem_cons.mp hj with rfl | hj'
        · exact hfail
        · exact hfails j hj'
      · rw [hloop]
        exact hres
    · have hloop : schedulingEaseLoop a (i0 :: rest) = cols0 := by
        simp only [schedulingEaseLoop, hok0]
      exact ⟨[], i0, rest, rfl, by simp, cols0, hok0, hloop⟩

theorem easeTry_succeeds_at_length {T : Type} (a : List (Item T))
    (ha : a ≠ []) :
    ∃ cols, schedulingEaseTry a (a.length : Int) = Except.ok (some cols) := by
  have hlen : 0 < a.length := List.length_pos.mpr ha
  have hcond : ¬((a.length : Int) ≤ 0) := by omega
  have hsome := easeTryGo_isSome hlen a (List.replicate a.length []) 0
    (by simp) (by rw [flatten_replicate_nil]; simp)
  obtain ⟨ans, hans⟩ := Option.isSome_iff_exists.mp hsome
  refine ⟨ans.map (fun v => v.map (fun e => e.id)), ?_⟩
  unfold schedulingEaseTry
  rw [if_neg hcond]
  rw [show ((a.length : Int)).toNat = a.length from by simp]
  rw [hans]

/-- C4: `schedulingEase` returns zero columns on empty input; on non-empty
input the trial at `n = len(items)` always succeeds, and `schedulingEase`
returns the result of `schedulingEaseTry` for the smallest `n` in
`1..len(items)` that succeeds — every smaller `n ≥ 1` fails with the
`false` value. -/
theorem minimal_column_search {T : Type} (a : List (Item T)) :
    (a = [] → schedulingEase a = []) ∧
    (a ≠ [] → ∃ cols,
      schedulingEaseTry a (a.length : Int) = Except.ok (some cols)) ∧
    (a ≠ [] → ∃ (n : Nat) (cols : List (List T)), 1 ≤ n ∧ n ≤ a.length ∧
      schedulingEaseTry a (n : Int) = Except.ok (some cols) ∧
      schedulingEase a = cols ∧
      ∀ m : Nat, 1 ≤ m → m < n →
        schedulingEaseTry a (m : Int) = Except.ok none) := by
  refine ⟨?_, fun ha => easeTry_succeeds_at_length a ha, ?_⟩
  · rintro rfl; rfl
  · intro ha
    obtain ⟨cols0, hok0⟩ := easeTry_succeeds_at_length a ha
    have hlen : 0 < a.length := List.length_pos.mpr ha
    have hexists : ∃ i : Nat, i ∈ List.range a.length ∧ ∃ cols,
        schedulingEaseTry a ((i : Int) + 1) = Except.ok (some cols) := by
      refine ⟨a.length - 1, List.mem_range.mpr (by omega), cols0, ?_⟩
      have he : ((a.length - 1 : Nat) : Int) + 1 = (a.length : Int) := by omega
      rw [he]
      exact hok0
    obtain ⟨ns1, i, ns2, heq, hfails, cols, hok, hres⟩ :=
      ease_loop_spec a (List.range a.length) hexists
    have hlens : ns1.length + 1 + ns2.length = a.length := by
      have := congrArg List.length heq
      simp at this
      omega
    have hival : i = ns1.length := by
      have h1 : (List.range a.length).get? ns1.length = some i := by
        rw [heq, List.get?_append_right (le_refl ns1.length)]
        simp
      rw [List.get?_range (by omega)] at h1
      injection h1 with h1
      exact h1.symm
    have htake : ns1 = List.range ns1.length := by
      have h2 := congrArg (List.take ns1.length) heq
      rw [List.take_left] at h2
      have h3 := (List.take_range ns1.length a.length).symm.trans h2
      rw [min_eq_left (show ns1.length ≤ a.length by omega)] at h3
      exact h3.symm
    refine ⟨i + 1, cols, by omega, by omega, ?_, ?_, ?_⟩
    · have he : ((i + 1 : Nat) : Int) = (i : Int) + 1 := by push_cast; ring
      rw [he]
      exact hok
    · rw [← hres]
      rfl
    · intro m hm1 hmi
      have hmem : m - 1 ∈ ns1 := by
        rw [htake]
        exact List.mem_range.mpr (by omega)
      have hf := hfails (m - 1) hmem
      have hc : ((m - 1 : Nat) : Int) + 1 = (m : Int) := by omega
      rw [hc] at hf
      exact hf

/-- Witness for C4 at the single interval `(0, 0, 5)`. -/
theorem minimal_column_search_witness :
    ∃ (n : Nat) (cols : List (List Nat)), 1 ≤ n ∧
      n ≤ ([(⟨0,0,5⟩ : Item Nat)] : List (Item Nat)).length ∧
      schedulingEaseTry [(⟨0,0,5⟩ : Item Nat)] (n : Int) =
        Except.ok (some cols) ∧
      schedulingEase [(⟨0,0,5⟩ : Item Nat)] = cols ∧
      ∀ m : Nat, 1 ≤ m → m < n →
        schedulingEaseTry [(⟨0,0,5⟩ : Item Nat)] (m : Int) =
          Except.ok none :=
  (minimal_column_search [(⟨0,0,5⟩ : Item Nat)]).2.2 (by decide)

/-! ## Cardinality preservation -/

theorem scheduling_flatten_perm {T : Type} (a : List (Item T)) :
    (scheduling a).flatten.Perm (a.map (fun x => x.id)) := by
  rw [scheduling_eq_map]
  have hlen : (sortByStart a).length ≤ a.length :=
    le_of_eq (sortByStart_perm a).length_eq
  have hmap := (pickLoopI_flatten_perm a.length (sortByStart a) hlen).map
    (fun x => x.id)
  rw [← List.map_flatten]
  exact hmap.trans ((sortByStart_perm a).map _)

theorem easeTry_ok_flatten_perm {T : Type} {a : List (Item T)} {n : Int}
    {cols : List (List T)}
    (h : schedulingEaseTry a n = Except.ok (some cols)) :
    cols.flatten.Perm (a.map (fun x => x.id)) := by
  unfold schedulingEaseTry at h
  split at h
  · cases h
  · split at h
    · rename_i ansI hgo
      simp only [Except.ok.injEq, Option.some.injEq] at h
      subst h
      have hperm := (easeTryGo_some _ _ _ _ _ hgo).1
      rw [flatten_replicate_nil] at hperm
      simp only [List.nil_append] at hperm
      rw [← List.map_flatten]
      exact hperm.map _
    · cases h

/-- C2: for inputs with pairwise-distinct ids and no maxColumns truncation,
every packer preserves cardinality: the ids collected across all result
columns are a permutation of the input ids (so no id is dropped and none
appears twice — with distinct input ids the collected ids are again
duplicate-free, i.e. each id sits in exactly one column exactly once), and
empty input yields zero columns. -/
theorem cardinality_preservation {T : Type} [DecidableEq T]
    (a : List (Item T)) (h : (a.map (fun x => x.id)).Nodup) :
    (scheduling a).flatten.Perm (a.map (fun x => x.id)) ∧
    (schedulingEase a).flatten.Perm (a.map (fun x => x.id)) ∧
    (∀ options : SchedulingOptions, options.maxColumns = none →
      ((schedule a options).columns.flatten).Perm (a.map (fun x => x.id))) ∧
    (scheduling a).flatten.Nodup ∧ (schedulingEase a).flatten.Nodup ∧
    (a = [] → scheduling a = [] ∧ schedulingEase a = [] ∧
      ∀ options, (schedule a options).columns = []) := by
  have h1 := scheduling_flatten_perm a
  have h2 : (schedulingEase a).flatten.Perm (a.map (fun x => x.id)) := by
    by_cases ha : a = []
    · subst ha
      exact List.Perm.nil
    · obtain ⟨n, cols, _, _, hok, hease, _⟩ :=
        (minimal_column_search a).2.2 ha
      rw [hease]
      exact easeTry_ok_flatten_perm hok
  have h3 : ∀ options : SchedulingOptions, options.maxColumns = none →
      ((schedule a options).columns.flatten).Perm (a.map (fun x => x.id)) := by
    intro options hmax
    rw [schedule_columns_eq h options]
    rw [← List.map_flatten]
    exact ((scheduleColsI_flatten_perm hmax (sortByStart a)).map _).trans
      ((sortByStart_perm a).map _)
  refine ⟨h1, h2, h3, h1.nodup_iff.mpr h, h2.nodup_iff.mpr h, ?_⟩
  rintro rfl
  exact ⟨rfl, rfl, fun options => rfl⟩

/-- Witness for C2 at a small two-interval input with distinct ids. -/
theorem cardinality_preservation_witness :
    ((scheduling [(⟨"a",0,5⟩ : Item String), ⟨"b",3,8⟩]).flatten).Perm
      ([(⟨"a",0,5⟩ : Item String), ⟨"b",3,8⟩].map (fun x => x.id)) :=
  (cardinality_preservation _ (by decide)).1

/-! ## Greedy minimality -/

theorem chain_head_le {T : Type} :
    ∀ (rest : List (Item T)) (x : Item T), ChainCol (x :: rest) →
      (∀ z ∈ x :: rest, z.start ≤ z.«end») →
      ∀ y ∈ rest, x.«end» ≤ y.start := by
  intro rest
  induction rest with
  | nil => intro x _ _ y hy; simp at hy
  | cons y0 rest' ih =>
    intro x hchain hse y hy
    unfold ChainCol at hchain
    have hxy0 := (List.chain'_cons.mp hchain).1
    have hrest : ChainCol (y0 :: rest') := (List.chain'_cons.mp hchain).2
    rcases List.mem_cons.mp hy with rfl | hy'
    · exact hxy0
    · have h1 := ih y0 hrest (fun z hz => hse z (by simp [List.mem_cons.mp hz]))
        y hy'
      have h2 : y0.start ≤ y0.«end» := hse y0 (by simp)
      omega

theorem chain_pairwise {T : Type} :
    ∀ (c : List (Item T)), ChainCol c → (∀ x ∈ c, x.start ≤ x.«end») →
      c.Pairwise (fun u v => u.«end» ≤ v.start) := by
  intro c
  induction c with
  | nil => intro _ _; simp
  | cons x rest ih =>
    intro hchain hse
    rw [List.pairwise_cons]
    have hrest : ChainCol rest := (List.chain'_cons'.mp hchain).2
    exact ⟨chain_head_le rest x hchain hse,
      ih hrest (fun z hz => hse z (by simp [hz]))⟩

theorem pairwise_countP_le_one {T : Type} (t : Int) :
    ∀ (c : List (Item T)), c.Pairwise (fun u v => u.«end» ≤ v.start) →
      c.countP (fun it => decide (it.start ≤ t ∧ t < it.«end»)) ≤ 1 := by
  intro c
  induction c with
  | nil => simp
  | cons x rest ih =>
    intro hp
    rw [List.countP_cons]
    rcases List.pairwise_cons.mp hp with ⟨hx, hrest⟩
    by_cases hxt : x.start ≤ t ∧ t < x.«end»
    · have h0 : rest.countP (fun it => decide (it.start ≤ t ∧ t < it.«end»))
          = 0 := by
        rw [List.countP_eq_zero]
        intro z hz
        simp only [decide_eq_true_eq, not_and, not_lt]
        intro hzs
        have := hx z hz
        omega
      rw [h0]
      simp [hxt]
    · have h1 := ih hrest
      simp only [decide_eq_true_eq, hxt, if_false]
      omega

theorem depth_le_of_cols {T : Type} {a : List (Item T)}
    {colsI : List (List (Item T))} (hperm : colsI.flatten.Perm a)
    (hch : ∀ c ∈ colsI, ChainCol c)
    (hse : ∀ x ∈ a, x.start ≤ x.«end») (t : Int) :
    depthAt a t ≤ colsI.length := by
  unfold depthAt
  rw [← hperm.countP_eq]
  rw [List.countP_flatten]
  have hone : ∀ k ∈ colsI.map
      (List.countP (fun it => decide (it.start ≤ t ∧ t < it.«end»))), k ≤ 1 := by
    intro k hk
    obtain ⟨c, hc, rfl⟩ := List.mem_map.mp hk
    refine pairwise_countP_le_one t c (chain_pairwise c (hch c hc) ?_)
    intro x hx
    exact hse x (hperm.subset (List.mem_flatten.mpr ⟨c, hc, hx⟩))
  calc (colsI.map
      (List.countP (fun it => decide (it.start ≤ t ∧ t < it.«end»)))).sum
      ≤ (colsI.map
        (List.countP (fun it => decide (it.start ≤ t ∧ t < it.«end»)))).length
          • 1 := List.sum_le_card_nsmul _ 1 hone
    _ = colsI.length := by simp

theorem ff_attain {T : Type} {options : SchedulingOptions}
    (hmax : options.maxColumns = none) {A : List (Item T)}
    (hd : ∀ x ∈ A, x.start < x.«end») :
    ∀ (l : List (Item T)) (cols : List (List (Item T))),
      l.Pairwise (fun u v => u.start ≤ v.start) →
      (∀ c ∈ cols, c ≠ []) →
      (∀ x ∈ cols.flatten, ∀ y ∈ l, x.start ≤ y.start) →
      (cols.flatten ++ l).Perm A →
      (cols ≠ [] → ∃ t, cols.length ≤ depthAt A t) →
      List.foldl (scheduleStepI options) cols l ≠ [] →
      ∃ t, (List.foldl (scheduleStepI options) cols l).length ≤ depthAt A t := by
  intro l
  induction l with
  | nil =>
    intro cols _ _ _ _ hinv hne
    simp only [List.foldl_nil] at hne ⊢
    exact hinv hne
  | cons x l' ih =>
    intro cols hsort hne hle hperm hinv hres
    rw [List.foldl_cons] at hres ⊢
    cases hp : placeFirstFitI x cols with
    | some placed =>
      have hstep : scheduleStepI options cols x = placed := by
        simp [scheduleStepI, hp]
      rw [hstep] at hres ⊢
      refine ih placed ?_ ?_ ?_ ?_ ?_ hres
      · exact (List.pairwise_cons.mp hsort).2
      · exact placeFirstFitI_nonempty hne hp
      · intro z hz y hy
        have hz' := (placeFirstFitI_flatten_perm hp).subset hz
        rcases List.mem_cons.mp hz' with rfl | hz''
        · exact (List.pairwise_cons.mp hsort).1 y hy
        · exact hle z hz'' y (by simp [hy])
      · refine List.Perm.trans ?_ hperm
        exact ((placeFirstFitI_flatten_perm hp).append_right l').trans
          List.perm_middle.symm
      · intro _
        rw [placeFirstFitI_length hp]
        apply hinv
        intro hcolsnil
        subst hcolsnil
        simp [placeFirstFitI] at hp
    | none =>
      have hreach : maxColumnsReached options cols = false := by
        simp [maxColumnsReached, hmax]
      have hstep : scheduleStepI options cols x = cols ++ [[x]] := by
        simp [scheduleStepI, hp, hreach]
      rw [hstep] at hres ⊢
      have hxA : x ∈ A := hperm.subset (by simp)
      refine ih (cols ++ [[x]]) ?_ ?_ ?_ ?_ ?_ hres
      · exact (List.pairwise_cons.mp hsort).2
      · intro c hc
        rcases List.mem_append.mp hc with hc' | hc'
        · exact hne c hc'
        · simp only [List.mem_singleton] at hc'
          subst hc'
          simp
      · intro z hz y hy
        simp only [List.flatten_append, List.flatten_cons, List.flatten_nil,
          List.append_nil, List.mem_append] at hz
        rcases hz with hz | hz
        · exact hle z hz y (by simp [hy])
        · simp only [List.mem_singleton] at hz
          subst hz
          exact (List.pairwise_cons.mp hsort).1 y hy
      · have he : (cols ++ [[x]]).flatten ++ l' = cols.flatten ++ (x :: l') := by
          simp [List.flatten_append]
        rw [he]
        exact hperm
      · intro _
        refine ⟨x.start, ?_⟩
        simp only [List.length_append, List.length_cons, List.length_nil]
        have hA := hperm.countP_eq
          (p := fun it => decide (it.start ≤ x.start ∧ x.start < it.«end»))
        rw [List.countP_append] at hA
        have hcols1 : cols.length ≤ cols.flatten.countP
            (fun it => decide (it.start ≤ x.start ∧ x.start < it.«end»)) := by
          rw [List.countP_flatten]
          calc cols.length
              = (cols.map (List.countP (fun it =>
                  decide (it.start ≤ x.start ∧ x.start < it.«end»)))).length
                    • 1 := by simp
            _ ≤ _ := by
              apply List.card_nsmul_le_sum
              intro k hk
              obtain ⟨c, hc, rfl⟩ := List.mem_map.mp hk
              have hcne := hne c hc
              cases hgl : c.getLast? with
              | none =>
                exfalso
                apply hcne
                cases c with
                | nil => rfl
                | cons z zs => simp [List.getLast?_eq_none_iff] at hgl
              | some L =>
                have hLmem : L ∈ c := List.mem_of_mem_getLast? hgl
                have hLlt : x.start < L.«end» :=
                  placeFirstFitI_none x cols hp c hc L hgl
                have hLle : L.start ≤ x.start :=
                  hle L (List.mem_flatten.mpr ⟨c, hc, hLmem⟩) x (by simp)
                refine List.countP_pos.mpr ⟨L, hLmem, ?_⟩
                simp only [decide_eq_true_eq]
                exact ⟨hLle, hLlt⟩
        have hx1 : 0 < (x :: l').countP
            (fun it => decide (it.start ≤ x.start ∧ x.start < it.«end»)) := by
          refine List.countP_pos.mpr ⟨x, by simp, ?_⟩
          simp only [decide_eq_true_eq]
          exact ⟨le_refl _, hd x hxA⟩
        unfold depthAt
        omega

theorem scheduling_eq_colsI {T : Type} (a : List (Item T)) :
    scheduling a = (scheduleColsI defaultOptions (sortByStart a)).map
      (fun c => c.map (fun x => x.id)) := by
  rw [scheduling_eq_map]
  congr 1
  rw [scheduleColsI]
  exact (ffI_eq_pickLoopI rfl a.length (sortByStart a)
    (le_of_eq (sortByStart_perm a).length_eq)).symm

/-- Counterexample for C3 as stated.  First: the zero-length interval
`(x,5,5)` (which satisfies `start ≤ end`) is packed into one column by the
greedy strategy, but no point lies in `[5,5)`, so no point is contained in
one interval.  Second: with duplicate ids, `schedule`'s id-based lookup
resolves a column's last id to the wrong interval — the three intervals
`(x,0,1),(x,1,100),(y,2,3)` land in a single column although the point `2`
is contained in two of them. -/
theorem greedy_minimality_counterexample :
    ((scheduling [(⟨"x",5,5⟩ : Item String)]).length = 1 ∧
      ¬∃ t : Int, depthAt [(⟨"x",5,5⟩ : Item String)] t = 1) ∧
    ((schedule [(⟨"x",0,1⟩ : Item String), ⟨"x",1,100⟩, ⟨"y",2,3⟩]
        defaultOptions).totalColumns = 1 ∧
      depthAt [(⟨"x",0,1⟩ : Item String), ⟨"x",1,100⟩, ⟨"y",2,3⟩] 2 = 2) := by
  refine ⟨⟨by decide, ?_⟩, by decide, by decide⟩
  rintro ⟨t, ht⟩
  unfold depthAt at ht
  simp only [List.countP_cons, List.countP_nil, decide_eq_true_eq] at ht
  by_cases hc : (5 : Int) ≤ t ∧ t < 5
  · omega
  · simp [hc] at ht

/-- C3 amended (the counterexample forces excluding zero-length intervals,
and distinct ids for the id-resolving `schedule`): for inputs whose
intervals all satisfy `start < end`, the number of columns produced by the
unconstrained greedy strategy equals the maximum number of intervals whose
`[start, end)` ranges contain a common point — an upper bound at every
point, attained at some point for non-empty input — and (given
pairwise-distinct ids) `schedule` without `maxColumns` yields that same
column count. -/
theorem greedy_minimality_amended {T : Type} [DecidableEq T]
    (a : List (Item T)) (hd : ∀ it ∈ a, it.start < it.«end») :
    (∀ t : Int, depthAt a t ≤ (scheduling a).length) ∧
    (a ≠ [] → ∃ t : Int, depthAt a t = (scheduling a).length) ∧
    (a = [] → scheduling a = []) ∧
    ((a.map (fun x => x.id)).Nodup → ∀ options : SchedulingOptions,
      options.maxColumns = none →
      (schedule a options).totalColumns = (scheduling a).length) := by
  have hA : (sortByStart a).Perm a := sortByStart_perm a
  have hALen : (sortByStart a).length ≤ a.length := le_of_eq hA.length_eq
  have hdA : ∀ x ∈ sortByStart a, x.start < x.«end» :=
    fun x hx => hd x (hA.subset hx)
  have hseA : ∀ x ∈ sortByStart a, x.start ≤ x.«end» :=
    fun x hx => le_of_lt (hdA x hx)
  have hlenmap : scheduling a =
      (scheduleColsI defaultOptions (sortByStart a)).map
        (fun c => c.map (fun x => x.id)) := scheduling_eq_colsI a
  have hlen : (scheduling a).length =
      (scheduleColsI defaultOptions (sortByStart a)).length := by
    rw [hlenmap, List.length_map]
  have hflat : (scheduleColsI defaultOptions (sortByStart a)).flatten.Perm
      (sortByStart a) := scheduleColsI_flatten_perm rfl _
  have hch := scheduleColsI_chain defaultOptions (sortByStart a)
  have hdepthEq : ∀ t, depthAt a t = depthAt (sortByStart a) t := by
    intro t
    unfold depthAt
    exact (hA.countP_eq _).symm
  have hupper : ∀ t : Int, depthAt a t ≤ (scheduling a).length := by
    intro t
    rw [hdepthEq t, hlen]
    exact depth_le_of_cols hflat hch hseA t
  refine ⟨hupper, ?_, ?_, ?_⟩
  · intro ha
    have hAne : sortByStart a ≠ [] := by
      intro hnil
      apply ha
      have hl := hA.length_eq
      rw [hnil] at hl
      exact List.length_eq_zero.mp hl.symm
    have hcne : scheduleColsI defaultOptions (sortByStart a) ≠ [] := by
      intro hnil
      rw [hnil] at hflat
      simp only [List.flatten_nil] at hflat
      exact hAne (List.nil_perm.mp hflat)
    obtain ⟨t, hge⟩ := ff_attain rfl hdA (sortByStart a) []
      (sortByStart_sorted a) (by simp) (by simp) (by simp)
      (fun h => absurd rfl h) hcne
    refine ⟨t, le_antisymm (hupper t) ?_⟩
    rw [hdepthEq t, hlen]
    exact hge
  · rintro rfl
    rfl
  · intro hnodup options hmaxo
    have h1 : (schedule a options).totalColumns =
        (schedule a options).columns.length := rfl
    rw [h1, schedule_columns_eq hnodup options, List.length_map, hlenmap,
      List.length_map, scheduleColsI, scheduleColsI,
      ffI_eq_pickLoopI hmaxo a.length (sortByStart a) hALen,
      ffI_eq_pickLoopI rfl a.length (sortByStart a) hALen]

/-- Witness for the amended C3 at the two-interval input
`[(a,0,5),(b,3,8)]`: the overlap depth is at most 2 everywhere and reaches
the greedy column count. -/
theorem greedy_minimality_amended_witness :
    (∀ t : Int, depthAt [(⟨"a",0,5⟩ : Item String), ⟨"b",3,8⟩] t ≤
      (scheduling [(⟨"a",0,5⟩ : Item String), ⟨"b",3,8⟩]).length) ∧
    (∃ t : Int, depthAt [(⟨"a",0,5⟩ : Item String), ⟨"b",3,8⟩] t =
      (scheduling [(⟨"a",0,5⟩ : Item String), ⟨"b",3,8⟩]).length) := by
  have h := greedy_minimality_amended
    [(⟨"a",0,5⟩ : Item String), ⟨"b",3,8⟩] (by decide)
  exact ⟨h.1, h.2.1 (by decide)⟩

/-! ## Efficiency bounds -/

theorem foldl_add_eq_sum {T : Type} (f : Item T → Int) :
    ∀ (l : List (Item T)) (init : Int),
      l.foldl (fun s x => s + f x) init = init + (l.map f).sum := by
  intro l
  induction l with
  | nil => intro init; simp
  | cons x rest ih =>
    intro init
    rw [List.foldl_cons, ih, List.map_cons, List.sum_cons]
    ring

theorem foldl_max_le : ∀ (rest : List Int) (init : Int),
    init ≤ rest.foldl max init ∧ ∀ x ∈ rest, x ≤ rest.foldl max init := by
  intro rest
  induction rest with
  | nil => intro init; exact ⟨le_refl _, by simp⟩
  | cons y rest ih =>
    intro init
    constructor
    · exact le_trans (le_max_left init y) (ih (max init y)).1
    · intro x hx
      rcases List.mem_cons.mp hx with rfl | hx'
      · exact le_trans (le_max_right init x) (ih (max init x)).1
      · exact (ih (max init y)).2 x hx'

theorem foldl_min_le : ∀ (rest : List Int) (init : Int),
    rest.foldl min init ≤ init ∧ ∀ x ∈ rest, rest.foldl min init ≤ x := by
  intro rest
  induction rest with
  | nil => intro init; exact ⟨le_refl _, by simp⟩
  | cons y rest ih =>
    intro init
    constructor
    · exact le_trans (ih (min init y)).1 (min_le_left init y)
    · intro x hx
      rcases List.mem_cons.mp hx with rfl | hx'
      · exact le_trans (ih (min init x)).1 (min_le_right init x)
      · exact (ih (min init y)).2 x hx'

theorem le_listMaxD {l : List Int} {x : Int} (hx : x ∈ l) : x ≤ listMaxD l := by
  cases l with
  | nil => simp at hx
  | cons y rest =>
    rcases List.mem_cons.mp hx with rfl | hx'
    · exact (foldl_max_le rest x).1
    · exact (foldl_max_le rest y).2 x hx'

theorem listMinD_le {l : List Int} {x : Int} (hx : x ∈ l) : listMinD l ≤ x := by
  cases l with
  | nil => simp at hx
  | cons y rest =>
    rcases List.mem_cons.mp hx with rfl | hx'
    · exact (foldl_min_le rest x).1
    · exact (foldl_min_le rest y).2 x hx'

theorem durSum_le {T : Type} :
    ∀ (c : List (Item T)), ChainCol c → (∀ x ∈ c, x.start ≤ x.«end») →
      ∀ lo hi : Int, (∀ x ∈ c, lo ≤ x.start) → (∀ x ∈ c, x.«end» ≤ hi) →
      lo ≤ hi → durSum c ≤ hi - lo := by
  intro c
  induction c with
  | nil =>
    intro _ _ lo hi _ _ hlohi
    simp only [durSum, List.map_nil, List.sum_nil]
    omega
  | cons x rest ih =>
    intro hchain hse lo hi hlo hhi _
    have hx_lo := hlo x (by simp)
    have hx_hi := hhi x (by simp)
    have hx_se : x.start ≤ x.«end» := hse x (by simp)
    have hrest_chain : ChainCol rest := (List.chain'_cons'.mp hchain).2
    have hheadle := chain_head_le rest x hchain hse
    have hih := ih hrest_chain (fun z hz => hse z (by simp [hz])) x.«end» hi
      hheadle (fun z hz => hhi z (by simp [hz])) hx_hi
    simp only [durSum, List.map_cons, List.sum_cons] at hih ⊢
    omega

theorem sum_durSum_le {T : Type} (span : Int) :
    ∀ (colsI : List (List (Item T))), (∀ c ∈ colsI, durSum c ≤ span) →
      (colsI.map durSum).sum ≤ (colsI.length : Int) * span := by
  intro colsI
  induction colsI with
  | nil => intro _; simp
  | cons c rest ih =>
    intro h
    have h1 := h c (by simp)
    have h2 := ih (fun c' hc' => h c' (by simp [hc']))
    simp only [List.map_cons, List.sum_cons, List.length_cons]
    have he : ((rest.length + 1 : Nat) : Int) * span =
        (rest.length : Int) * span + span := by
      push_cast
      ring
    rw [he]
    omega

theorem calculateEfficiency_bounds {T : Type} (columns : List (List T))
    (items : List (Item T))
    (hnonneg : 0 ≤ items.foldl (fun sum item => sum + (item.«end» - item.start)) 0)
    (hle : items.foldl (fun sum item => sum + (item.«end» - item.start)) 0 ≤
      (listMaxD (items.map (fun item => item.«end»)) -
        listMinD (items.map (fun item => item.start))) * (columns.length : Int)) :
    0 ≤ calculateEfficiency columns items ∧
      calculateEfficiency columns items ≤ 1 := by
  unfold calculateEfficiency
  by_cases hnil : columns.length = 0
  · rw [if_pos hnil]
    norm_num
  · rw [if_neg hnil]
    by_cases hpos : 0 < (listMaxD (items.map (fun item => item.«end»)) -
        listMinD (items.map (fun item => item.start))) * (columns.length : Int)
    · rw [if_pos hpos]
      constructor
      · apply div_nonneg
        · exact_mod_cast hnonneg
        · exact le_of_lt (by exact_mod_cast hpos)
      · rw [div_le_one (by exact_mod_cast hpos)]
        exact_mod_cast hle
    · rw [if_neg hpos]
      norm_num

/-- Counterexample for C6 as stated: with `maxColumns = 1` and the two fully
overlapping intervals `(a,0,10),(b,0,10)`, interval `b` is silently dropped
from the packing but still counted in `usedTime`, so
`efficiency = 20/10 = 2 > 1`. -/
theorem efficiency_counterexample :
    1 < (schedule [(⟨"a",0,10⟩ : Item String), ⟨"b",0,10⟩]
      ⟨none, some 1, none, none⟩).efficiency := by
  have h : (schedule [(⟨"a",0,10⟩ : Item String), ⟨"b",0,10⟩]
      ⟨none, some 1, none, none⟩).efficiency = (20 : Rat) / (10 : Rat) := rfl
  rw [h]
  norm_num

/-- C6 amended (the counterexample forces excluding maxColumns truncation;
dropped-but-counted intervals, duplicate ids and negative durations can push
the ratio outside `[0,1]`): for inputs with pairwise-distinct ids whose
intervals all satisfy `start ≤ end`, packed without `maxColumns`, the
efficiency of the result lies in `[0,1]`. -/
theorem efficiency_range_amended {T : Type} [DecidableEq T]
    (items : List (Item T)) (options : SchedulingOptions)
    (h : (items.map (fun x => x.id)).Nodup)
    (hse : ∀ it ∈ items, it.start ≤ it.«end»)
    (hmax : options.maxColumns = none) :
    0 ≤ (schedule items options).efficiency ∧
      (schedule items options).efficiency ≤ 1 := by
  have hEff : (schedule items options).efficiency =
      calculateEfficiency (schedule items options).columns items := rfl
  rw [hEff, schedule_columns_eq h options]
  have hA : (sortByStart items).Perm items := sortByStart_perm items
  apply calculateEfficiency_bounds
  · rw [foldl_add_eq_sum]
    simp only [zero_add]
    apply List.sum_nonneg
    intro x hx
    obtain ⟨it, hit, rfl⟩ := List.mem_map.mp hx
    have := hse it hit
    omega
  · rw [foldl_add_eq_sum]
    simp only [zero_add, List.length_map]
    have hperm2 : (scheduleColsI options (sortByStart items)).flatten.Perm
        items := (scheduleColsI_flatten_perm hmax (sortByStart items)).trans hA
    have hsum : (items.map (fun it => it.«end» - it.start)).sum =
        ((scheduleColsI options (sortByStart items)).map durSum).sum := by
      rw [← (hperm2.map (fun it => it.«end» - it.start)).sum_eq]
      rw [List.map_flatten, List.sum_flatten, List.map_map]
      rfl
    rw [hsum]
    have hspan_each : ∀ c ∈ scheduleColsI options (sortByStart items),
        durSum c ≤ listMaxD (items.map (fun item => item.«end»)) -
          listMinD (items.map (fun item => item.start)) := by
      intro c hc
      have hcmem : ∀ x ∈ c, x ∈ items := fun x hx =>
        hperm2.subset (List.mem_flatten.mpr ⟨c, hc, hx⟩)
      have hcne : c ≠ [] :=
        scheduleColsI_nonempty options (sortByStart items) c hc
      obtain ⟨x0, hx0⟩ := List.exists_mem_of_ne_nil c hcne
      refine durSum_le c
        (scheduleColsI_chain options (sortByStart items) c hc)
        (fun x hx => hse x (hcmem x hx))
        (listMinD (items.map (fun item => item.start)))
        (listMaxD (items.map (fun item => item.«end»))) ?_ ?_ ?_
      · intro x hx
        exact listMinD_le (List.mem_map_of_mem _ (hcmem x hx))
      · intro x hx
        exact le_listMaxD (List.mem_map_of_mem _ (hcmem x hx))
      · have h1 := listMinD_le (List.mem_map_of_mem
          (fun item => item.start) (hcmem x0 hx0))
        have h2 := le_listMaxD (List.mem_map_of_mem
          (fun item => item.«end») (hcmem x0 hx0))
        have h3 := hse x0 (hcmem x0 hx0)
        simp only at h1 h2
        omega
    have hfin := sum_durSum_le _ _ hspan_each
    rw [mul_comm] at hfin
    exact hfin

/-- Witness for the amended C6 at the two-interval input `[(a,0,5),(b,3,8)]`. -/
theorem efficiency_range_amended_witness :
    0 ≤ (schedule [(⟨"a",0,5⟩ : Item String), ⟨"b",3,8⟩]
        defaultOptions).efficiency ∧
      (schedule [(⟨"a",0,5⟩ : Item String), ⟨"b",3,8⟩]
        defaultOptions).efficiency ≤ 1 :=
  efficiency_range_amended [(⟨"a",0,5⟩ : Item String), ⟨"b",3,8⟩]
    defaultOptions (by decide) (by decide) rfl

end IntervalScheduling
